import Mathlib

/-!
# Verification of the mindlogger-app-backend response / JSON-LD utilities

Shallow embedding of `src/girder/api/v1/response.py` and
`src/girderformindlogger/utility/jsonld_expander.py`.

Python JSON values are modelled by the inductive type `J` (with `J.null`
standing for Python's `None`); Python dicts are association lists with
insertion-order semantics (`jset` updates an existing key in place and
appends a new key at the end, exactly as CPython 3.7+ dicts behave).
Python exceptions are modelled with `Except PyExc`; calls into the
third-party `pyld` library (`jsonld.expand`) are modelled by an explicit
oracle parameter, since that library is not part of this repository.
String manipulation is modelled over the characters of the string
(`String.data`), with ASCII case semantics, matching the ASCII regular
expression classes (`[A-Z]`, `[a-z0-9]`) the source uses.
-/

/-- A JSON value, as manipulated by the Python source.  `null` is Python's
`None`; `obj` is a Python dict in insertion order. -/
inductive J where
  | null : J
  | bool : Bool → J
  | num : Int → J
  | str : String → J
  | arr : List J → J
  | obj : List (String × J) → J

/-- Python truthiness (`bool(v)`) of a JSON value. -/
def truthy : J → Bool
  | .null => false
  | .bool b => b
  | .num n => n != 0
  | .str s => s != ""
  | .arr l => !l.isEmpty
  | .obj l => !l.isEmpty

/-- A Python dict with JSON values: an association list in insertion order. -/
abbrev JObj := List (String × J)

/-- `d.get(k)` on a Python dict: the value at the (unique) matching key, or
`none` when the key is absent. -/
def jget (o : JObj) (k : String) : Option J :=
  (o.find? (fun p => p.1 == k)).map (·.2)

/-- `k in d` on a Python dict. -/
def jhas (o : JObj) (k : String) : Bool :=
  o.any (fun p => p.1 == k)

/-- `d[k] = v` on a Python dict: update the value in place when the key is
present (keeping its position), append the pair otherwise. -/
def jset (o : JObj) (k : String) (v : J) : JObj :=
  if jhas o k then o.map (fun p => if p.1 == k then (k, v) else p)
  else o ++ [(k, v)]

/-- The keys of a Python dict, in order. -/
def keysOf (o : JObj) : List String := o.map (·.1)

theorem jhas_cons (p : String × J) (t : JObj) (k : String) :
    jhas (p :: t) k = ((p.1 == k) || jhas t k) := by
  simp [jhas]

theorem find?_map_update (t : JObj) (k : String) (v : J) (h : jhas t k = true) :
    List.find? (fun p => p.1 == k) (t.map (fun p => if p.1 == k then (k, v) else p)) =
      some (k, v) := by
  induction t with
  | nil => simp [jhas] at h
  | cons p t ih =>
    by_cases hp : (p.1 == k) = true
    · simp only [List.map_cons, if_pos hp]
      rw [List.find?_cons_of_pos _ (by simp)]
    · simp only [List.map_cons, if_neg hp]
      rw [List.find?_cons_of_neg _ (by simp [hp])]
      apply ih
      rw [jhas_cons] at h
      simpa [hp] using h

theorem find?_append_new (t : JObj) (k : String) (v : J) (h : jhas t k = false) :
    List.find? (fun p => p.1 == k) (t ++ [(k, v)]) = some (k, v) := by
  induction t with
  | nil =>
    simp only [List.nil_append]
    rw [List.find?_cons_of_pos _ (by simp)]
  | cons p t ih =>
    rw [jhas_cons] at h
    have hp : (p.1 == k) = false := by
      cases hpk : (p.1 == k) <;> simp [hpk] at h ⊢
    simp only [List.cons_append]
    rw [List.find?_cons_of_neg _ (by simp [hp])]
    apply ih
    simpa [hp] using h

theorem jget_jset_self (o : JObj) (k : String) (v : J) :
    jget (jset o k v) k = some v := by
  unfold jset
  by_cases h : jhas o k = true
  · rw [if_pos h]
    unfold jget
    rw [find?_map_update o k v h]
    rfl
  · rw [if_neg h]
    unfold jget
    rw [find?_append_new o k v (by simpa using h)]
    rfl

theorem jset_mem_other (o : JObj) (k k' : String) (v v' : J)
    (hmem : (k, v) ∈ o) (hne : k ≠ k') : (k, v) ∈ jset o k' v' := by
  unfold jset
  split
  · refine List.mem_map.mpr ⟨(k, v), hmem, ?_⟩
    simp [hne]
  · exact List.mem_append_left _ hmem

theorem jset_mem_forall {P : String × J → Prop} (o : JObj) (k : String) (v : J)
    (ho : ∀ p ∈ o, P p) (hv : P (k, v)) : ∀ p ∈ jset o k v, P p := by
  intro p hp
  unfold jset at hp
  split at hp
  · obtain ⟨q, hq, hpq⟩ := List.mem_map.mp hp
    by_cases h : q.1 = k
    · simp only [beq_iff_eq, if_pos h] at hpq; exact hpq ▸ hv
    · simp only [beq_iff_eq, if_neg h] at hpq; exact hpq ▸ ho q hq
  · rcases List.mem_append.mp hp with h | h
    · exact ho p h
    · simp only [List.mem_singleton] at h; exact h ▸ hv

/-! ## String helpers (Python `str` operations over `List Char`, ASCII) -/

/-- Python `c in s` for a single-character needle. -/
def hasChar (c : Char) (s : String) : Bool := s.data.contains c

/-- Python `s.split(c)` for a one-character separator: splits on every
occurrence, keeping empty parts (so it never returns an empty list). -/
def splitOnC (c : Char) : List Char → List (List Char)
  | [] => [[]]
  | x :: xs =>
    match splitOnC c xs with
    | h :: t => if x = c then [] :: h :: t else (x :: h) :: t
    | [] => [[]]

/-- Python `s.split(c)[-1]`: the part after the last occurrence of `c`
(the whole string when `c` does not occur). -/
def lastComp (c : Char) : List Char → List Char
  | [] => []
  | x :: xs =>
    if x = c then lastComp c xs
    else if xs.contains c then lastComp c xs
    else x :: lastComp c xs

/-- ASCII `[A-Z]` (codepoints 65-90). -/
def isUp (c : Char) : Bool := 65 ≤ c.toNat && c.toNat ≤ 90

/-- ASCII `[a-z]` (codepoints 97-122). -/
def isLo (c : Char) : Bool := 97 ≤ c.toNat && c.toNat ≤ 122

/-- ASCII `[0-9]` (codepoints 48-57). -/
def isDig (c : Char) : Bool := 48 ≤ c.toNat && c.toNat ≤ 57

/-- ASCII lower-casing of one character (Python `str.lower`, ASCII range). -/
def lowerChar (c : Char) : Char :=
  if isUp c then Char.ofNat (c.toNat + 32) else c

/-- ASCII upper-casing of one character. -/
def upperChar (c : Char) : Char :=
  if isLo c then Char.ofNat (c.toNat - 32) else c

/-- Python `s.lower()` (ASCII range). -/
def strToLower (s : String) : String := String.mk (s.data.map lowerChar)

/-! ## Language-tag resolution (`getByLanguage` and helpers) -/

/-- One step of `getMoreGeneric`'s loop (jsonld_expander.py:556):
`langTag[::-1].split('-', 1)[1][::-1]`, i.e. the prefix of the tag before
its last hyphen. -/
def beforeLastDash (l : List Char) : List Char :=
  ((l.reverse.dropWhile (fun x => x ≠ '-')).tail).reverse

theorem length_dropWhile_le {α : Type} (p : α → Bool) (l : List α) :
    (l.dropWhile p).length ≤ l.length := by
  induction l with
  | nil => simp
  | cons x xs ih =>
    by_cases h : p x
    · simp only [List.dropWhile_cons, h, if_true, List.length_cons]
      omega
    · simp [List.dropWhile_cons, h]

/-- Worker for `getMoreGeneric`, structurally recursive on a fuel that
the wrapper instantiates with the tag length: stripping the last subtag
strictly shortens the tag, so a tag of length `n` is stripped at most
`n` times and the fuel never runs out while a hyphen remains. -/
def getMoreGenericAux : Nat → List Char → List (List Char)
  | 0, langTag => [langTag]
  | fuel + 1, langTag =>
    langTag ::
      (if langTag.contains '-' then getMoreGenericAux fuel (beforeLastDash langTag)
       else [])

/-- `getMoreGeneric` (jsonld_expander.py:545): the decreasingly specific
prefixes of a BCP-47 language tag, most specific first. -/
def getMoreGeneric (langTag : List Char) : List (List Char) :=
  getMoreGenericAux langTag.length langTag

/-- Python `max(listOfKeys, key=len)`: the first element of maximal
length (`max` returns the first maximal item). -/
def maxByLen : List String → Option String
  | [] => none
  | x :: xs => some (xs.foldl (fun acc s => if s.length > acc.length then s else acc) x)

/-- `{k.lower(): v for k, v in object.items()}` (a Python dict
comprehension: later duplicates overwrite in place). -/
def lowerObj (o : JObj) : JObj :=
  o.foldl (fun acc p => jset acc (strToLower p.1) p.2) []

/-- Stable insertion step for a descending sort by string length. -/
def insertByLenDesc (s : String) : List String → List String
  | [] => [s]
  | x :: xs => if x.length ≥ s.length then x :: insertByLenDesc s xs else s :: x :: xs

/-- Python `tags.sort(key=len, reverse=True)`: a stable sort by
decreasing length. -/
def sortByLenDesc (l : List String) : List String := l.foldr insertByLenDesc []

/-- Worker for `getFromLongestMatchingKey`, structurally recursive on a
fuel that the wrapper instantiates with the number of keys (each
recursive call of the source removes exactly one key from the list, so
the fuel never runs out before the key list is empty). -/
def getFromLongestMatchingKeyAux : Nat → JObj → List String → Bool → Option J
  | _, _, [], _ => none
  | 0, _, _, _ => none
  | fuel + 1, object, listOfKeys, caseInsensitive =>
    let objectL := if caseInsensitive then lowerObj object else object
    let keysL := if caseInsensitive then listOfKeys.map strToLower else listOfKeys
    match maxByLen keysL with
    | none => none
    | some key =>
      if key = "" then none
      else
        match jget objectL key with
        | some v => some v
        | none => getFromLongestMatchingKeyAux fuel objectL (keysL.erase key) true

/-- `getFromLongestMatchingKey` (jsonld_expander.py:454): value of the
longest matching key, recursing over ever shorter key lists.  The source
recursion removes one key per call; it is modelled with a fuel equal to
the length of the key list. -/
def getFromLongestMatchingKey (object : JObj) (listOfKeys : List String)
    (caseInsensitive : Bool) : Option J :=
  getFromLongestMatchingKeyAux listOfKeys.length object listOfKeys caseInsensitive

/-- `getByLanguage` (jsonld_expander.py:412) for a dict object and an
explicitly supplied string tag (so the database lookup of a default tag
and the list-input branch are not exercised): builds the candidate tag
list (plain and `@`-prefixed, sorted by decreasing length, Python's
stable sort) and delegates to `getFromLongestMatchingKey` with
case-insensitive matching. -/
def getByLanguage (object : JObj) (tag : String) : Option J :=
  let tags := (getMoreGeneric tag.data).map String.mk
  let tags := tags ++ tags.map (fun t => "@" ++ t)
  let tags := sortByLenDesc tags
  getFromLongestMatchingKey object tags true

/-- The example dictionary of the specification for language lookup. -/
def langExample : JObj :=
  [("en-us", J.str "Hello"), ("en", J.str "Hi"), ("fr", J.str "Bonjour")]

/-- Claim C6: on `{"en-us": "Hello", "en": "Hi", "fr": "Bonjour"}`,
`getByLanguage` returns `"Hello"` for the tag `"en-us"`, `"Hi"` for the
tag `"en-gb"` (falling back to the more generic candidate `"en"`), and
`None` for the tag `"de"`. -/
theorem C6_getByLanguage_examples :
    getByLanguage langExample "en-us" = some (J.str "Hello") ∧
    getByLanguage langExample "en-gb" = some (J.str "Hi") ∧
    getByLanguage langExample "de" = none :=
  ⟨rfl, rfl, rfl⟩

/-! ## Python exceptions and the `formatLdObject` retry structure -/

/-- A Python exception, by class (only the classes the modelled code can
raise are distinguished). -/
inductive PyExc
  | typeError
  | attributeError
  | valueError
  | keyError
  | otherError

/-- `formatLdObject` (jsonld_expander.py:159): the top-level
`try/except` structure of lines 191-348.  The body of the `try:` block
is abstracted as `body refreshCache`, an arbitrary computation returning
either a value (`Option J`, `none` standing for an implicit Python
`None`) or raising an exception; all other arguments are passed
unchanged to the retry (only `refreshCache` is forced to `True`), so
they are folded into `body`.  On an exception with `refreshCache` still
false the function returns the result of retrying itself with
`refreshCache=True`; on an exception with `refreshCache` true it prints
the traceback and falls off the end, returning Python `None`. -/
def formatLdObject (body : Bool → Except PyExc (Option J)) (refreshCache : Bool) :
    Option J :=
  match body refreshCache with
  | .ok v => v
  | .error _ =>
    if refreshCache = false then formatLdObject body true
    else none
termination_by (if refreshCache then 0 else 1)
decreasing_by
  rename_i h
  simp [h]

/-- Claim C4: when a call of `formatLdObject` with `refreshCache=False`
raises, the function performs exactly one automatic retry of itself with
`refreshCache=True` (the result of the original call is the result of
the retry, so a successful retry's value is returned); if the retry
raises as well, the exception is swallowed and the call returns `None`
(it never propagates an exception, as witnessed by the total return
type). -/
theorem C4_formatLdObject_retry (body : Bool → Except PyExc (Option J))
    (e : PyExc) (h : body false = .error e) :
    formatLdObject body false = formatLdObject body true ∧
    (∀ v, body true = .ok v → formatLdObject body false = v) ∧
    (∀ e₂, body true = .error e₂ → formatLdObject body false = none) := by
  have h1 : formatLdObject body false = formatLdObject body true := by
    rw [formatLdObject]
    simp [h]
  refine ⟨h1, ?_, ?_⟩
  · intro v hv
    rw [h1, formatLdObject]
    simp [hv]
  · intro e₂ he
    rw [h1, formatLdObject]
    simp [he]

/-- Witness for C4 at a body that raises on both attempts. -/
theorem C4_formatLdObject_retry_witness :
    formatLdObject (fun _ => .error .typeError) false = none :=
  (C4_formatLdObject_retry (fun _ => .error .typeError) .typeError rfl).2.2
    .typeError rfl

/-! ## JSON-LD expansion (`expand`, jsonld_expander.py:84) -/

/-- Result of a call into pyld's `jsonld.expand`: success, a
`jsonld.JsonLdError` whose cause has type `"jsonld.ContextUrlError"`
(carrying the bad URL in `e.cause.details['url']`), or a `JsonLdError`
of any other cause type.  pyld is a third-party library, so its
behaviour is an oracle parameter of the embedding. -/
inductive LdResult where
  | ok : J → LdResult
  | ctxUrlError : String → LdResult
  | otherLdError : LdResult

/-- The behaviour of `jsonld.expand` on each input. -/
abbrev Oracle := J → LdResult

/-- `newObj[0] if isinstance(newObj, list) and len(newObj) == 1 else
newObj` (jsonld_expander.py:105). -/
def unwrapSingle : J → J
  | .arr [x] => x
  | j => j

/-- A Python computation: `none` when the modelling fuel ran out,
otherwise a raised exception or a value. -/
abbrev PyRes (α : Type) := Except PyExc α

/-- Sequencing of embedded Python computations: fuel exhaustion and
raised exceptions propagate. -/
def obind {α β : Type} (x : Option (PyRes α)) (f : α → Option (PyRes β)) :
    Option (PyRes β) :=
  match x with
  | none => none
  | some (.error e) => some (.error e)
  | some (.ok a) => f a

/-- `KEYS_TO_EXPAND` (jsonld_expander.py:20). -/
def KEYS_TO_EXPAND : List String :=
  ["responseOptions",
   "https://schema.repronim.org/valueconstraints",
   "reproterms:valueconstraints",
   "valueconstraints"]

/-- `keyExpansion` (jsonld_expander.py:561): for each key, its part
after the last `:` and after the last `/` (for each of the two
delimiters the key contains), together with all keys containing neither
delimiter.  The source wraps this in `list(set(...))`; only membership
in the result is ever used, so deduplication and order are irrelevant
and the plain concatenation is kept. -/
def keyExpansion (keys : List String) : List String :=
  (keys.flatMap fun k =>
    ([':', '/'].filter (fun d => hasChar d k)).map
      (fun d => String.mk (lastComp d k.data)))
  ++ keys.filter (fun k => !hasChar ':' k && !hasChar '/' k)

/-- Lines 114-116 of jsonld_expander.py: pop every falsy-valued key from
the expanded dict (iteration over a copy, so it is a plain filter). -/
def dropFalsy (m : JObj) : JObj := m.filter (fun p => truthy p.2)

/-- Lines 117-123 of jsonld_expander.py: `newObj.update({k: obj.get(k)
for k in obj.keys() if (bool(obj.get(k)) and k not in
keyExpansion(list(newObj.keys())))})`.  The comprehension is built
against the falsy-stripped dict `m1` and then merged key by key. -/
def mergeBack (objD : JObj) (m1 : JObj) : JObj :=
  (objD.filter fun p =>
    truthy p.2 && !(keyExpansion (keysOf m1)).contains p.1).foldl
    (fun acc p => jset acc p.1 p.2) m1

/-- `[expand(n, keepUndefined) for n in newObj]` (line 137), with `E`
the one-step-less-fuel recursive call. -/
def expandListE (E : J → Option (PyRes J)) : List J → Option (PyRes (List J))
  | [] => some (.ok [])
  | x :: xs =>
    obind (E x) fun v =>
    obind (expandListE E xs) fun vs =>
    some (.ok (v :: vs))

/-- `[expand(lv.get('@id')) for lv in newObj.get(k)]` (line 128): a
non-dict element has no `.get` and raises `AttributeError`; a dict
element without `@id` contributes `expand(None)`. -/
def expandIdsE (E : J → Option (PyRes J)) : List J → Option (PyRes (List J))
  | [] => some (.ok [])
  | lv :: rest =>
    match lv with
    | .obj fields =>
      obind (E ((jget fields "@id").getD J.null)) fun v =>
      obind (expandIdsE E rest) fun vs =>
      some (.ok (v :: vs))
    | _ => some (.error .attributeError)

/-- `v = v if v != [None] else None` (line 130). -/
def collapseSingletonNone : List J → J
  | [J.null] => J.null
  | vs => J.arr vs

/-- Lines 126-132 of jsonld_expander.py: the re-expanded value for one
value-constraint key: element-wise through `@id` for a list value, via a
single recursive `expand` otherwise (the `none` case is unreachable, the
key having just been checked present). -/
def keyValueExpand (E : J → Option (PyRes J)) : Option J → Option (PyRes J)
  | some (.arr lst) =>
    obind (expandIdsE E lst) fun vs => some (.ok (collapseSingletonNone vs))
  | some other => E other
  | none => some (.ok J.null)

/-- The `for k in KEYS_TO_EXPAND` loop (lines 124-134): for each
value-constraint key present, re-expand its value and replace it only
when the re-expansion is truthy. -/
def keysLoopE (E : J → Option (PyRes J)) : List String → JObj → Option (PyRes JObj)
  | [], acc => some (.ok acc)
  | k :: rest, acc =>
    if jhas acc k then
      obind (keyValueExpand E (jget acc k)) fun v =>
      keysLoopE E rest (if truthy v then jset acc k v else acc)
    else keysLoopE E rest acc

/-- Lines 108-135 of jsonld_expander.py: the branch taken when the
(unwrapped) expansion result is a dict: drop falsy values, merge back
unexpanded original keys, run the value-constraint loop, and collapse an
empty dict to `None`. -/
def expandDictBranch (E : J → Option (PyRes J)) (objD m : JObj) :
    Option (PyRes J) :=
  obind (keysLoopE E KEYS_TO_EXPAND (mergeBack objD (dropFalsy m))) fun final =>
  some (.ok (if truthy (J.obj final) then J.obj final else J.null))

/-- Membership of a string URL in a Python list (used by
`obj.get('@context', []).remove(invalidContext)`: only an equal string
element compares equal to the URL). -/
def ctxHasUrl (ctx : List J) (url : String) : Bool :=
  ctx.any fun e => match e with | .str s => s == url | _ => false

/-- `expand` (jsonld_expander.py:84), parametrised by the pyld oracle
and a recursion fuel (`none` = fuel exhausted; the Python recursion has
no such bound).  The `except` branch reproduces the source faithfully:
`obj["@context"] = obj.get('@context', []).remove(invalidContext)`
mutates the list, then stores the `None` that `list.remove` returns; a
missing or already-`None` `@context`, or a URL not in the list, raises
(`AttributeError`/`ValueError`), and a non-dict `obj` has no `.get`. -/
def expand (oracle : Oracle) : Nat → J → Bool → Option (PyRes J)
  | 0, _, _ => none
  | fuel + 1, obj, keepUndefined =>
    match obj with
    | .null => some (.ok J.null)
    | _ =>
      match oracle obj with
      | .ctxUrlError url =>
        match obj with
        | .obj fields =>
          match jget fields "@context" with
          | some (.arr ctx) =>
            if ctxHasUrl ctx url then
              expand oracle fuel (J.obj (jset fields "@context" J.null))
                keepUndefined
            else some (.error .valueError)
          | some _ => some (.error .attributeError)
          | none => some (.error .valueError)
        | _ => some (.error .attributeError)
      | .otherLdError => some (.ok obj)
      | .ok res =>
        match unwrapSingle res with
        | .obj m =>
          expandDictBranch (fun j => expand oracle fuel j false)
            (match obj with | .obj d => d | _ => []) m
        | .arr l =>
          obind (expandListE (fun j => expand oracle fuel j keepUndefined) l)
            fun vs =>
          some (.ok (if truthy (J.arr vs) then J.arr vs else J.null))
        | .str s =>
          obind (expandListE (fun j => expand oracle fuel j keepUndefined)
              (s.data.map (fun c => J.str (String.mk [c])))) fun vs =>
          some (.ok (if truthy (J.arr vs) then J.arr vs else J.null))
        | _ => some (.error .typeError)

/-- An object whose `@context` lists one reachable and one unreachable
remote context URL, plus an ordinary property. -/
def ctxBugObj : JObj :=
  [("@context", J.arr [J.str "https://good.example/context.jsonld",
                       J.str "https://bad.example/context.jsonld"]),
   ("a", J.str "b")]

/-- pyld behaviour for `ctxBugObj`: expanding the original object fails
with a `ContextUrlError` naming the unreachable URL; any other input
(in particular the retried object, whose `@context` has become `None`)
fails with a differently-caused `JsonLdError`. -/
def ctxBugOracle : Oracle := fun j =>
  match j with
  | .obj (("@context", J.arr (_ :: _ :: _)) :: _) =>
    .ctxUrlError "https://bad.example/context.jsonld"
  | _ => .otherLdError

/-- Claim C2 (code bug): on a `ContextUrlError` the source executes
`obj["@context"] = obj.get('@context', []).remove(invalidContext)`.
Python's `list.remove` mutates the list and returns `None`, so the
assignment replaces the whole `@context` list with `None` instead of
merely deleting the bad URL: the good URL
`"https://good.example/context.jsonld"` is lost and the retry runs with
`@context = None`.  The claim (and the evident intent of calling
`.remove`) is that only the unreachable URL is removed, so the retried
object should have kept `["https://good.example/context.jsonld"]`.  The
second half of the claim does hold: on any other expansion error the
input is returned unchanged (third conjunct). -/
theorem C2_context_removal_bug :
    expand ctxBugOracle 2 (J.obj ctxBugObj) false =
      some (.ok (J.obj [("@context", J.null), ("a", J.str "b")])) ∧
    jget [("@context", J.null), ("a", J.str "b")] "@context" = some J.null ∧
    expand ctxBugOracle 1 (J.obj [("x", J.str "y")]) false =
      some (.ok (J.obj [("x", J.str "y")])) :=
  ⟨rfl, rfl, rfl⟩

/-- Claim C8: `expand(None)` is `None`, and `expand({})` collapses the
empty expansion result to `None` rather than an empty dict or list.
The hypothesis pins the oracle to pyld's actual behaviour on the empty
dict: `jsonld.expand({})` returns the empty list `[]`. -/
theorem C8_expand_none_and_empty (oracle : Oracle)
    (h : oracle (J.obj []) = .ok (J.arr [])) :
    expand oracle 1 J.null false = some (.ok J.null) ∧
    expand oracle 1 (J.obj []) false = some (.ok J.null) := by
  refine ⟨rfl, ?_⟩
  show (match oracle (J.obj []) with
    | .ctxUrlError url =>
      match jget ([] : JObj) "@context" with
      | some (.arr ctx) =>
        if ctxHasUrl ctx url then
          expand oracle 0 (J.obj (jset [] "@context" J.null)) false
        else some (.error .valueError)
      | some _ => some (.error .attributeError)
      | none => some (.error .valueError)
    | .otherLdError => some (.ok (J.obj []))
    | .ok res =>
      match unwrapSingle res with
      | .obj m => expandDictBranch (fun j => expand oracle 0 j false) [] m
      | .arr l =>
        obind (expandListE (fun j => expand oracle 0 j false) l) fun vs =>
        some (.ok (if truthy (J.arr vs) then J.arr vs else J.null))
      | .str s =>
        obind (expandListE (fun j => expand oracle 0 j false)
            (s.data.map (fun c => J.str (String.mk [c])))) fun vs =>
        some (.ok (if truthy (J.arr vs) then J.arr vs else J.null))
      | _ => some (.error .typeError)) = some (.ok J.null)
  rw [h]
  rfl

/-- Witness for C8 at a concrete oracle expanding everything to `[]`. -/
theorem C8_expand_none_and_empty_witness :
    expand (fun _ => LdResult.ok (J.arr [])) 1 J.null false = some (.ok J.null) ∧
    expand (fun _ => LdResult.ok (J.arr [])) 1 (J.obj []) false = some (.ok J.null) :=
  C8_expand_none_and_empty (fun _ => LdResult.ok (J.arr [])) rfl


/-! ## Suffix forms of namespaced keys and merge-back (claim C5) -/

theorem lastComp_cons (c x : Char) (xs : List Char) :
    lastComp c (x :: xs) =
      if x = c then lastComp c xs
      else if xs.contains c then lastComp c xs
      else x :: lastComp c xs := by
  rw [lastComp]

theorem lastComp_not_contains (c : Char) (l : List Char) :
    (lastComp c l).contains c = false := by
  induction l with
  | nil => rfl
  | cons x xs ih =>
    rw [lastComp_cons]
    by_cases hx : x = c
    · rw [if_pos hx]; exact ih
    · rw [if_neg hx]
      by_cases hc : xs.contains c = true
      · rw [if_pos hc]; exact ih
      · rw [if_neg hc]
        rw [List.contains_cons]
        rw [ih]
        have : (c == x) = false := by
          rw [beq_eq_false_iff_ne]
          exact fun h => hx h.symm
        rw [this]
        rfl

theorem lastComp_of_not_contains (c : Char) (l : List Char)
    (h : l.contains c = false) : lastComp c l = l := by
  induction l with
  | nil => rfl
  | cons x xs ih =>
    rw [List.contains_cons, Bool.or_eq_false_iff] at h
    obtain ⟨h1, h2⟩ := h
    have hx : ¬ x = c := by
      rw [beq_eq_false_iff_ne] at h1
      exact fun h => h1 h.symm
    rw [lastComp_cons, if_neg hx, if_neg (by rw [h2]; exact Bool.false_ne_true), ih h2]

theorem lastComp_mem_subset (c x : Char) (l : List Char)
    (h : x ∈ lastComp c l) : x ∈ l := by
  induction l with
  | nil => exact absurd h (by rw [lastComp]; exact List.not_mem_nil x)
  | cons y ys ih =>
    rw [lastComp_cons] at h
    by_cases hy : y = c
    · rw [if_pos hy] at h
      exact List.mem_cons_of_mem _ (ih h)
    · rw [if_neg hy] at h
      by_cases hc : ys.contains c = true
      · rw [if_pos hc] at h
        exact List.mem_cons_of_mem _ (ih h)
      · rw [if_neg hc] at h
        rcases List.mem_cons.mp h with h | h
        · exact h ▸ List.mem_cons_self _ _
        · exact List.mem_cons_of_mem _ (ih h)

theorem lastComp_decomp (c : Char) (l : List Char) (h : l.contains c = true) :
    ∃ u, l = u ++ c :: lastComp c l := by
  induction l with
  | nil => simp at h
  | cons x xs ih =>
    by_cases hx : x = c
    · by_cases hc : xs.contains c = true
      · obtain ⟨u, hu⟩ := ih hc
        refine ⟨x :: u, ?_⟩
        rw [lastComp_cons, if_pos hx, List.cons_append]
        exact congrArg _ hu
      · refine ⟨[], ?_⟩
        rw [lastComp_cons, if_pos hx,
          lastComp_of_not_contains c xs (Bool.not_eq_true _ ▸ hc),
          List.nil_append, hx]
    · have hc : xs.contains c = true := by
        rw [List.contains_cons, Bool.or_eq_true] at h
        rcases h with h | h
        · exact absurd (by rw [beq_iff_eq] at h; exact h.symm) hx
        · exact h
      obtain ⟨u, hu⟩ := ih hc
      refine ⟨x :: u, ?_⟩
      rw [lastComp_cons, if_neg hx, if_pos hc, List.cons_append]
      exact congrArg _ hu

theorem lastComp_append_of_contains (c : Char) (u v : List Char)
    (h : v.contains c = true) : lastComp c (u ++ v) = lastComp c v := by
  induction u with
  | nil => rw [List.nil_append]
  | cons x xs ih =>
    have hc : (xs ++ v).contains c = true := by
      rcases List.contains_iff_exists_mem_beq.mp h with ⟨a, ha, hab⟩
      exact List.contains_iff_exists_mem_beq.mpr
        ⟨a, List.mem_append_right _ ha, hab⟩
    by_cases hx : x = c
    · rw [List.cons_append, lastComp_cons, if_pos hx]
      exact ih
    · rw [List.cons_append, lastComp_cons, if_neg hx, if_pos hc]
      exact ih

theorem lastComp_lastComp (c d : Char) (l : List Char)
    (h : (lastComp c l).contains d = true) :
    lastComp d (lastComp c l) = lastComp d l := by
  by_cases hc : l.contains c = true
  · obtain ⟨u, hu⟩ := lastComp_decomp c l hc
    conv_rhs => rw [hu]
    rw [show u ++ c :: lastComp c l = (u ++ [c]) ++ lastComp c l by
      rw [List.append_assoc]; rfl]
    rw [lastComp_append_of_contains d _ _ h]
  · rw [lastComp_of_not_contains c l (Bool.not_eq_true _ ▸ hc)]

/-- The suffix form of a key in the claim's sense: the key stripped of
its `/` (preferably) or `:` namespace prefix.  This is the
specification-side notion the claim quantifies with; the source's
`keyExpansion` membership test is compared against it. -/
def suffixOf (k : String) : String :=
  if hasChar '/' k then String.mk (lastComp '/' k.data)
  else if hasChar ':' k then String.mk (lastComp ':' k.data)
  else k

theorem keyExpansion_intro_delim (S : List String) (k' : String) (dlm : Char)
    (hk' : k' ∈ S) (hdin : dlm ∈ [':', '/']) (hdhas : hasChar dlm k' = true) :
    String.mk (lastComp dlm k'.data) ∈ keyExpansion S := by
  rw [keyExpansion, List.mem_append]
  left
  rw [List.mem_flatMap]
  exact ⟨k', hk', List.mem_map.mpr
    ⟨dlm, List.mem_filter.mpr ⟨hdin, hdhas⟩, rfl⟩⟩

/-- Membership in `keyExpansion` is downward closed under taking
suffix forms: if a key occurs among the suffix forms of `S`, so does its
own suffix form.  (Used contrapositively: when the claim's suffix-form
test clears a key, the source's raw-key test clears it too.) -/
theorem suffixOf_mem_keyExpansion (S : List String) (k : String)
    (h : k ∈ keyExpansion S) : suffixOf k ∈ keyExpansion S := by
  rw [keyExpansion, List.mem_append] at h
  rcases h with h | h
  · rw [List.mem_flatMap] at h
    obtain ⟨k', hk', hmem⟩ := h
    rw [List.mem_map] at hmem
    obtain ⟨dlm, hdlm, hkey⟩ := hmem
    rw [List.mem_filter] at hdlm
    obtain ⟨hdin, hdhas⟩ := hdlm
    subst hkey
    have hdin2 : dlm = ':' ∨ dlm = '/' := by
      simpa using hdin
    rcases hdin2 with rfl | rfl
    · -- k = last part after ':' of k'
      by_cases hsl : hasChar '/' (String.mk (lastComp ':' k'.data)) = true
      · rw [suffixOf, if_pos hsl]
        have hcont : (lastComp ':' k'.data).contains '/' = true := hsl
        have heq : lastComp '/' (String.mk (lastComp ':' k'.data)).data =
            lastComp '/' k'.data := lastComp_lastComp ':' '/' k'.data hcont
        rw [heq]
        refine keyExpansion_intro_delim S k' '/' hk' (by simp) ?_
        have : '/' ∈ k'.data := by
          have h1 : '/' ∈ lastComp ':' k'.data := by
            rcases List.contains_iff_exists_mem_beq.mp hcont with ⟨a, ha, hab⟩
            rw [beq_iff_eq] at hab
            exact hab ▸ ha
          exact lastComp_mem_subset ':' '/' k'.data h1
        exact List.elem_eq_true_of_mem this
      · rw [suffixOf, if_neg hsl]
        have hsc : ¬ hasChar ':' (String.mk (lastComp ':' k'.data)) = true := by
          intro hcc
          have : (lastComp ':' k'.data).contains ':' = true := hcc
          rw [lastComp_not_contains] at this
          exact Bool.false_ne_true this
        rw [if_neg hsc]
        exact keyExpansion_intro_delim S k' ':' hk' (by simp) hdhas
    · -- k = last part after '/' of k'
      have hsl : ¬ hasChar '/' (String.mk (lastComp '/' k'.data)) = true := by
        intro hcc
        have : (lastComp '/' k'.data).contains '/' = true := hcc
        rw [lastComp_not_contains] at this
        exact Bool.false_ne_true this
      rw [suffixOf, if_neg hsl]
      by_cases hsc : hasChar ':' (String.mk (lastComp '/' k'.data)) = true
      · rw [if_pos hsc]
        have hcont : (lastComp '/' k'.data).contains ':' = true := hsc
        have heq : lastComp ':' (String.mk (lastComp '/' k'.data)).data =
            lastComp ':' k'.data := lastComp_lastComp '/' ':' k'.data hcont
        rw [heq]
        refine keyExpansion_intro_delim S k' ':' hk' (by simp) ?_
        have : ':' ∈ k'.data := by
          have h1 : ':' ∈ lastComp '/' k'.data := by
            rcases List.contains_iff_exists_mem_beq.mp hcont with ⟨a, ha, hab⟩
            rw [beq_iff_eq] at hab
            exact hab ▸ ha
          exact lastComp_mem_subset '/' ':' k'.data h1
        exact List.elem_eq_true_of_mem this
      · rw [if_neg hsc]
        exact keyExpansion_intro_delim S k' '/' hk' (by simp) hdhas
  · rw [List.mem_filter] at h
    obtain ⟨hin, hcond⟩ := h
    simp only [Bool.and_eq_true, Bool.not_eq_true'] at hcond
    obtain ⟨h1, h2⟩ := hcond
    rw [suffixOf, if_neg (by rw [h2]; exact Bool.false_ne_true),
      if_neg (by rw [h1]; exact Bool.false_ne_true)]
    rw [keyExpansion, List.mem_append]
    right
    rw [List.mem_filter]
    exact ⟨hin, by rw [h1, h2]; rfl⟩

theorem notin_keyExpansion_of_suffix (S : List String) (k : String)
    (h : suffixOf k ∉ keyExpansion S) : k ∉ keyExpansion S :=
  fun hk => h (suffixOf_mem_keyExpansion S k hk)

theorem jset_mem_self (o : JObj) (k : String) (v : J) : (k, v) ∈ jset o k v := by
  unfold jset
  split
  · rename_i h
    unfold jhas at h
    rw [List.any_eq_true] at h
    obtain ⟨p, hp, hpk⟩ := h
    exact List.mem_map.mpr ⟨p, hp, by rw [if_pos hpk]⟩
  · exact List.mem_append_right _ (List.mem_singleton.mpr rfl)

theorem foldl_jset_preserve (ps : List (String × J)) (acc : JObj)
    (k : String) (v : J) (hkv : (k, v) ∈ acc) (hk : k ∉ ps.map Prod.fst) :
    (k, v) ∈ ps.foldl (fun a p => jset a p.1 p.2) acc := by
  induction ps generalizing acc with
  | nil => exact hkv
  | cons q t ih =>
    rw [List.map_cons] at hk
    have hne : k ≠ q.1 := fun h => hk (h ▸ List.mem_cons_self _ _)
    have hk2 : k ∉ t.map Prod.fst := fun h => hk (List.mem_cons_of_mem _ h)
    exact ih (jset acc q.1 q.2) (jset_mem_other acc k q.1 v q.2 hkv hne) hk2

theorem foldl_jset_mem (ps : List (String × J)) (acc : JObj)
    (k : String) (v : J) (hps : (k, v) ∈ ps) (hnd : (ps.map Prod.fst).Nodup) :
    (k, v) ∈ ps.foldl (fun a p => jset a p.1 p.2) acc := by
  induction ps generalizing acc with
  | nil => exact absurd hps (List.not_mem_nil _)
  | cons q t ih =>
    rw [List.map_cons, List.nodup_cons] at hnd
    obtain ⟨hq, hnd2⟩ := hnd
    rcases List.mem_cons.mp hps with h | h
    · subst h
      exact foldl_jset_preserve t (jset acc k v) k v (jset_mem_self acc k v) hq
    · exact ih (jset acc q.1 q.2) h hnd2

theorem foldl_jset_truthy (ps : List (String × J)) (acc : JObj)
    (hacc : ∀ p ∈ acc, truthy p.2 = true) (hps : ∀ p ∈ ps, truthy p.2 = true) :
    ∀ p ∈ ps.foldl (fun a p => jset a p.1 p.2) acc, truthy p.2 = true := by
  induction ps generalizing acc with
  | nil => exact hacc
  | cons q t ih =>
    refine ih (jset acc q.1 q.2) ?_ (fun p hp => hps p (List.mem_cons_of_mem _ hp))
    exact jset_mem_forall acc q.1 q.2 hacc (hps q (List.mem_cons_self _ _))

theorem dropFalsy_truthy (m : JObj) : ∀ p ∈ dropFalsy m, truthy p.2 = true := by
  intro p hp
  exact (List.mem_filter.mp hp).2

theorem mergeBack_truthy (objD m1 : JObj)
    (hm1 : ∀ p ∈ m1, truthy p.2 = true) :
    ∀ p ∈ mergeBack objD m1, truthy p.2 = true := by
  refine foldl_jset_truthy _ m1 hm1 ?_
  intro p hp
  have := (List.mem_filter.mp hp).2
  rw [Bool.and_eq_true] at this
  exact this.1

theorem mergeBack_mem (objD m1 : JObj) (k : String) (v : J)
    (hkv : (k, v) ∈ objD) (ht : truthy v = true)
    (hnot : k ∉ keyExpansion (keysOf m1)) (hnd : (keysOf objD).Nodup) :
    (k, v) ∈ mergeBack objD m1 := by
  have hfil : (k, v) ∈ objD.filter
      (fun p => truthy p.2 && !(keyExpansion (keysOf m1)).contains p.1) := by
    rw [List.mem_filter]
    refine ⟨hkv, ?_⟩
    rw [Bool.and_eq_true]
    refine ⟨ht, ?_⟩
    rw [Bool.not_eq_true']
    rw [← Bool.not_eq_true]
    intro hcont
    refine hnot ?_
    rcases List.contains_iff_exists_mem_beq.mp hcont with ⟨a, ha, hab⟩
    rw [beq_iff_eq] at hab
    subst hab
    exact ha
  refine foldl_jset_mem _ m1 k v hfil ?_
  have hsub : List.Sublist
      ((objD.filter
        (fun p => truthy p.2 && !(keyExpansion (keysOf m1)).contains p.1)).map
        Prod.fst) (objD.map Prod.fst) :=
    (List.filter_sublist _).map Prod.fst
  exact List.Nodup.sublist hsub hnd

theorem keysLoopE_invariant (E : J → Option (PyRes J)) :
    ∀ (keys : List String) (acc final : JObj),
      keysLoopE E keys acc = some (.ok final) →
      (∀ p ∈ acc, truthy p.2 = true) →
      (∀ p ∈ final, truthy p.2 = true) ∧
      (∀ k v, (k, v) ∈ acc → k ∉ keys → (k, v) ∈ final) ∧
      (∀ k v, (k, v) ∈ acc → ∃ v2, (k, v2) ∈ final ∧ truthy v2 = true) := by
  intro keys
  induction keys with
  | nil =>
    intro acc final h hacc
    rw [keysLoopE] at h
    have : acc = final := by
      injection h with h2
      injection h2
    subst this
    exact ⟨hacc, fun k v hv _ => hv, fun k v hv => ⟨v, hv, hacc _ hv⟩⟩
  | cons key rest ih =>
    intro acc final h hacc
    rw [keysLoopE] at h
    by_cases hj : jhas acc key = true
    · rw [if_pos hj] at h
      cases hkv : keyValueExpand E (jget acc key) with
      | none => rw [hkv] at h; exact absurd h (by rw [obind]; intro hc; cases hc)
      | some r =>
        cases r with
        | error e =>
          rw [hkv] at h
          exact absurd h (by rw [obind]; intro hc; injection hc with hc2; cases hc2)
        | ok v =>
          rw [hkv] at h
          rw [obind] at h
          set acc2 := if truthy v = true then jset acc key v else acc with hacc2
          have hacc2T : ∀ p ∈ acc2, truthy p.2 = true := by
            rw [hacc2]
            split
            · rename_i htv
              exact jset_mem_forall acc key v hacc htv
            · exact hacc
          obtain ⟨A, B, C⟩ := ih acc2 final h hacc2T
          refine ⟨A, ?_, ?_⟩
          · intro k v0 hv0 hk
            have hkne : k ≠ key := fun hh => hk (hh ▸ List.mem_cons_self _ _)
            have hkrest : k ∉ rest := fun hh => hk (List.mem_cons_of_mem _ hh)
            refine B k v0 ?_ hkrest
            rw [hacc2]
            split
            · exact jset_mem_other acc k key v0 v hv0 hkne
            · exact hv0
          · intro k v0 hv0
            by_cases hkk : k = key
            · subst hkk
              by_cases htv : truthy v = true
              · refine C k v ?_
                rw [hacc2, if_pos htv]
                exact jset_mem_self acc k v
              · refine C k v0 ?_
                rw [hacc2, if_neg htv]
                exact hv0
            · refine C k v0 ?_
              rw [hacc2]
              split
              · exact jset_mem_other acc k key v0 v hv0 hkk
              · exact hv0
    · rw [if_neg hj] at h
      obtain ⟨A, B, C⟩ := ih acc final h hacc
      exact ⟨A, fun k v hv hk => B k v hv (fun hh => hk (List.mem_cons_of_mem _ hh)), C⟩

theorem expand_dict_step (oracle : Oracle) (fuel : Nat) (d m : JObj)
    (res : J) (ku : Bool)
    (hor : oracle (J.obj d) = .ok res) (hun : unwrapSingle res = J.obj m) :
    expand oracle (fuel + 1) (J.obj d) ku =
      expandDictBranch (fun j => expand oracle fuel j false) d m := by
  show (match oracle (J.obj d) with
    | .ctxUrlError url =>
      match jget d "@context" with
      | some (.arr ctx) =>
        if ctxHasUrl ctx url then
          expand oracle fuel (J.obj (jset d "@context" J.null)) ku
        else some (.error .valueError)
      | some _ => some (.error .attributeError)
      | none => some (.error .valueError)
    | .otherLdError => some (.ok (J.obj d))
    | .ok res2 =>
      match unwrapSingle res2 with
      | .obj m2 => expandDictBranch (fun j => expand oracle fuel j false) d m2
      | .arr l =>
        obind (expandListE (fun j => expand oracle fuel j ku) l) fun vs =>
        some (.ok (if truthy (J.arr vs) then J.arr vs else J.null))
      | .str s =>
        obind (expandListE (fun j => expand oracle fuel j ku)
            (s.data.map (fun c => J.str (String.mk [c])))) fun vs =>
        some (.ok (if truthy (J.arr vs) then J.arr vs else J.null))
      | _ => some (.error .typeError)) =
    expandDictBranch (fun j => expand oracle fuel j false) d m
  rw [hor]
  show (match unwrapSingle res with
    | .obj m2 => expandDictBranch (fun j => expand oracle fuel j false) d m2
    | .arr l =>
      obind (expandListE (fun j => expand oracle fuel j ku) l) fun vs =>
      some (.ok (if truthy (J.arr vs) then J.arr vs else J.null))
    | .str s =>
      obind (expandListE (fun j => expand oracle fuel j ku)
          (s.data.map (fun c => J.str (String.mk [c])))) fun vs =>
      some (.ok (if truthy (J.arr vs) then J.arr vs else J.null))
    | _ => some (.error .typeError)) =
    expandDictBranch (fun j => expand oracle fuel j false) d m
  rw [hun]

/-- Claim C5, amended: for a dict input on which the pyld expansion call
succeeds and (after single-element unwrapping) yields a dict, the result
of `expand` contains no falsy-valued key, and it contains every original
top-level key with truthy value whose suffix form is absent from the
suffix forms of the (falsy-stripped) expanded keys — mapped to its
original value when the key is not one of the four `KEYS_TO_EXPAND`
value-constraint keys, and mapped to a (possibly re-expanded) truthy
value when it is. -/
theorem C5_expand_merge_amended (oracle : Oracle) (fuel : Nat) (d m : JObj)
    (res r : J) (ku : Bool)
    (hnd : (keysOf d).Nodup)
    (hor : oracle (J.obj d) = .ok res)
    (hun : unwrapSingle res = J.obj m)
    (hr : expand oracle (fuel + 1) (J.obj d) ku = some (.ok r)) :
    (∀ l, r = J.obj l → ∀ p ∈ l, truthy p.2 = true) ∧
    (∀ k v, (k, v) ∈ d → truthy v = true →
      suffixOf k ∉ keyExpansion (keysOf (dropFalsy m)) →
      ∃ l, r = J.obj l ∧
        (k ∈ KEYS_TO_EXPAND → ∃ v2, (k, v2) ∈ l ∧ truthy v2 = true) ∧
        (k ∉ KEYS_TO_EXPAND → (k, v) ∈ l)) := by
  rw [expand_dict_step oracle fuel d m res ku hor hun] at hr
  rw [expandDictBranch] at hr
  cases hkl : keysLoopE (fun j => expand oracle fuel j false) KEYS_TO_EXPAND
      (mergeBack d (dropFalsy m)) with
  | none => rw [hkl, obind] at hr; cases hr
  | some rr =>
    cases rr with
    | error e =>
      rw [hkl, obind] at hr
      injection hr with h2
      cases h2
    | ok final =>
      rw [hkl, obind] at hr
      injection hr with h2
      injection h2 with h3
      obtain ⟨A, B, C⟩ := keysLoopE_invariant
        (fun j => expand oracle fuel j false) KEYS_TO_EXPAND
        (mergeBack d (dropFalsy m)) final hkl
        (mergeBack_truthy d (dropFalsy m) (dropFalsy_truthy m))
      constructor
      · intro l hl p hp
        have hfl : final = l := by
          by_cases hf : truthy (J.obj final) = true
          · rw [if_pos hf] at h3
            rw [← h3] at hl
            injection hl
          · rw [if_neg hf] at h3
            rw [← h3] at hl
            exact J.noConfusion hl
        subst hfl
        exact A p hp
      · intro k v hkv htv hsuf
        have hnotk : k ∉ keyExpansion (keysOf (dropFalsy m)) :=
          notin_keyExpansion_of_suffix _ _ hsuf
        have hmem : (k, v) ∈ mergeBack d (dropFalsy m) :=
          mergeBack_mem d (dropFalsy m) k v hkv htv hnotk hnd
        obtain ⟨v2, hv2, ht2⟩ := C k v hmem
        have hne : final ≠ [] := by
          intro hh
          rw [hh] at hv2
          exact List.not_mem_nil _ hv2
        have hf : truthy (J.obj final) = true := by
          rw [truthy]
          cases final with
          | nil => exact absurd rfl hne
          | cons a t => rfl
        rw [if_pos hf] at h3
        refine ⟨final, h3.symm, ?_, ?_⟩
        · intro _
          exact ⟨v2, hv2, ht2⟩
        · intro hknot
          exact B k v hmem hknot

/-- Witness for the amended C5 at a concrete oracle and input: both
entries of the concrete result are truthy. -/
theorem C5_expand_merge_amended_witness :
    truthy (J.str "y") = true ∧ truthy (J.str "w") = true := by
  have h := C5_expand_merge_amended
    (fun _ => .ok (J.arr [J.obj [("http://ex.example/q", J.str "y")]]))
    0 [("zz", J.str "w")] [("http://ex.example/q", J.str "y")]
    (J.arr [J.obj [("http://ex.example/q", J.str "y")]])
    (J.obj [("http://ex.example/q", J.str "y"), ("zz", J.str "w")]) false
    (by simp [keysOf]) rfl rfl rfl
  exact ⟨h.1 _ rfl ("http://ex.example/q", J.str "y") (by simp),
    h.1 _ rfl ("zz", J.str "w") (by simp)⟩

/-- The original object of the C5 counterexample: a truthy
value-constraint key. -/
def c5orig : JObj := [("responseOptions", J.obj [("a", J.str "b")])]

/-- pyld behaviour for the C5 counterexample: the whole object expands
to a dict keyed by an IRI whose suffix forms do not include
`responseOptions`, and the value under `responseOptions` expands (the
value carries its own context in the real library) to a different
dict. -/
def c5oracle : Oracle := fun j =>
  match j with
  | .obj (("responseOptions", _) :: _) =>
    .ok (J.arr [J.obj [("http://ex.example/q", J.str "y")]])
  | .obj (("a", _) :: _) =>
    .ok (J.arr [J.obj [("http://ex.example/a", J.str "b2")]])
  | _ => .otherLdError

/-- Counterexample to claim C5 as stated: the original key
`responseOptions` is truthy, and its suffix form is absent from the
suffix forms of the expanded result's keys, so the claim requires the
result to map it to its original value `{"a": "b"}`; but `expand`
re-expands the merged-back value through the `KEYS_TO_EXPAND` loop and
the result maps it to `{"http://ex.example/a": "b2"}` instead. -/
theorem C5_counterexample :
    expand c5oracle 2 (J.obj c5orig) false =
      some (.ok (J.obj [("http://ex.example/q", J.str "y"),
        ("responseOptions", J.obj [("http://ex.example/a", J.str "b2")])])) ∧
    truthy (J.obj [("a", J.str "b")]) = true ∧
    suffixOf "responseOptions" ∉
      keyExpansion (keysOf (dropFalsy [("http://ex.example/q", J.str "y")])) ∧
    J.obj [("http://ex.example/a", J.str "b2")] ≠ J.obj [("a", J.str "b")] := by
  refine ⟨rfl, rfl, ?_, ?_⟩
  · intro h
    simp only [suffixOf, keyExpansion, keysOf, dropFalsy] at h
    revert h
    decide
  · intro h
    injection h with h1
    injection h1 with h2
    injection h2 with h3
    exact absurd h3 (by decide)

/-! ## Response retrieval (`getResponses`, response.py:54) -/

/-- Python subscripting `v[key]` with a string key: dict lookup
(`KeyError` when absent); any non-dict value raises `TypeError`
(strings and lists only take integer indices). -/
def pySubscript (v : J) (key : String) : Except PyExc J :=
  match v with
  | .obj l =>
    match jget l key with
    | some x => .ok x
    | none => .error .keyError
  | _ => .error .typeError

/-- Python `v == s` for a string literal `s`: only an equal string
compares equal. -/
def pyEqStr (v : J) (s : String) : Bool :=
  match v with
  | .str t => t == s
  | _ => false

/-- A child folder of the user's `Responses` folder, as observed by
`getResponses`: its name, its `meta` dict (when present), its direct
child items and the child items of each of its subject subfolders
(items are modelled by opaque numeric ids). -/
structure RespFolder where
  name : String
  meta : Option JObj
  items : List Nat
  subjectItems : List (List Nat)

/-- The body of `getResponses`' loop (response.py:70-95) for one child
folder: a folder whose name equals the applet folder's name overwrites
the entry with its direct child items; otherwise a folder whose
`meta.applet['@id']` equals `appletId` overwrites the entry with the
concatenated items of its subject subfolders (`folder['meta']['applet']`
is subscripted with `'@id'` unconditionally once the first two guards
pass, so a missing `'@id'` or a non-dict `applet` raises). -/
def getResponsesStep (appletId appletName : String) (acc : Option (List Nat))
    (f : RespFolder) : Except PyExc (Option (List Nat)) :=
  if f.name == appletName then .ok (some f.items)
  else
    match f.meta with
    | some meta =>
      match jget meta "applet" with
      | some appletVal =>
        match pySubscript appletVal "@id" with
        | .ok idVal =>
          if pyEqStr idVal appletId then .ok (some f.subjectItems.flatten)
          else .ok acc
        | .error e => .error e
      | none => .ok acc
    | none => .ok acc

/-- The loop of `getResponses` over the child folders, threading the
`allResponses` dict.  Only the key `appletId` is ever written, so the
dict is modelled as `Option (List Nat)` (`none` = key absent). -/
def getResponsesFold (appletId appletName : String) :
    List RespFolder → Option (List Nat) → Except PyExc (Option (List Nat))
  | [], acc => .ok acc
  | f :: rest, acc =>
    match getResponsesStep appletId appletName acc f with
    | .ok acc2 => getResponsesFold appletId appletName rest acc2
    | .error e => .error e

/-- `getResponses` (response.py:54): `appletName` is the name of the
folder loaded from `appletId`, `folders` the child folders of the
user's `Responses` folder in enumeration order.  Returns the
`allResponses` mapping (`none` = `{}`, `some items` =
`{appletId: items}`). -/
def getResponses (appletId appletName : String) (folders : List RespFolder) :
    Except PyExc (Option (List Nat)) :=
  getResponsesFold appletId appletName folders none

/-- The contribution a single folder would write under `appletId`. -/
def folderContribution (appletId appletName : String) (f : RespFolder) :
    Option (List Nat) :=
  if f.name == appletName then some f.items
  else
    match f.meta with
    | some meta =>
      match jget meta "applet" with
      | some appletVal =>
        match pySubscript appletVal "@id" with
        | .ok idVal =>
          if pyEqStr idVal appletId then some f.subjectItems.flatten else none
        | .error _ => none
      | none => none
    | none => none

/-- A folder on which the loop body cannot raise: either it matches by
name (short-circuiting the meta check), or its meta check runs without
an exception. -/
def folderSafe (appletName : String) (f : RespFolder) : Bool :=
  (f.name == appletName) ||
  (match f.meta with
   | some meta =>
     match jget meta "applet" with
     | some appletVal =>
       (match pySubscript appletVal "@id" with
        | .ok _ => true
        | .error _ => false)
     | none => true
   | none => true)

/-- The name-matching folder of the C1 counterexample (legacy schema):
direct child item `1`. -/
def c1folderName : RespFolder :=
  { name := "N", meta := none, items := [1], subjectItems := [] }

/-- The `@id`-matching folder of the C1 counterexample (new schema):
subject subfolder with item `2`. -/
def c1folderId : RespFolder :=
  { name := "X", meta := some [("applet", J.obj [("@id", J.str "A")])],
    items := [], subjectItems := [[2]] }

/-- Counterexample to claim C1: with both a name-matching and an
`@id`-matching folder present, `getResponses` does not return the union
of their items under `appletId`; each matching branch assigns (not
extends) `allResponses[appletId]`, so the folder enumerated last wins
and the result depends on the enumeration order. -/
theorem C1_counterexample :
    getResponses "A" "N" [c1folderName, c1folderId] = .ok (some [2]) ∧
    getResponses "A" "N" [c1folderId, c1folderName] = .ok (some [1]) ∧
    (1 : Nat) ∉ [2] ∧ (2 : Nat) ∉ [1] :=
  ⟨rfl, rfl, by decide, by decide⟩

theorem option_or_assoc {α : Type} (a b c : Option α) :
    (a.or b).or c = a.or (b.or c) := by
  cases a <;> rfl

theorem getLast?_cons {α : Type} (x : α) (l : List α) :
    (x :: l).getLast? = l.getLast?.or (some x) := by
  induction l generalizing x with
  | nil => rfl
  | cons y t ih =>
    rw [List.getLast?_cons_cons, ih y]
    cases h : t.getLast? <;> rfl

theorem getResponsesFold_last (appletId appletName : String)
    (folders : List RespFolder) (acc : Option (List Nat))
    (h : ∀ f ∈ folders, folderSafe appletName f = true) :
    getResponsesFold appletId appletName folders acc =
      .ok (((folders.filterMap (folderContribution appletId appletName)).getLast?).or acc) := by
  induction folders generalizing acc with
  | nil => rfl
  | cons f rest ih =>
    have hf : folderSafe appletName f = true := h f (List.mem_cons_self _ _)
    have hrest : ∀ g ∈ rest, folderSafe appletName g = true :=
      fun g hg => h g (List.mem_cons_of_mem _ hg)
    have hstep : getResponsesStep appletId appletName acc f =
        .ok ((folderContribution appletId appletName f).or acc) := by
      rcases f with ⟨fn, fm, fi, fs⟩
      rw [folderSafe] at hf
      rw [getResponsesStep, folderContribution]
      dsimp only at hf ⊢
      by_cases hn : (fn == appletName) = true
      · rw [if_pos hn, if_pos hn]
        rfl
      · rw [if_neg hn, if_neg hn]
        cases fm with
        | none => rfl
        | some meta =>
          dsimp only at hf ⊢
          cases ha : jget meta "applet" with
          | none => rfl
          | some appletVal =>
            dsimp only at hf ⊢
            cases hs : pySubscript appletVal "@id" with
            | error e =>
              rw [ha] at hf
              dsimp only at hf
              rw [hs] at hf
              dsimp only at hf
              rw [Bool.or_false] at hf
              exact absurd hf hn
            | ok idVal =>
              dsimp only
              by_cases heq : pyEqStr idVal appletId = true
              · rw [if_pos heq, if_pos heq]
                rfl
              · rw [if_neg heq, if_neg heq]
                rfl
    rw [getResponsesFold, hstep]
    show getResponsesFold appletId appletName rest
        ((folderContribution appletId appletName f).or acc) = _
    rw [ih _ hrest]
    rw [List.filterMap_cons]
    cases hc : folderContribution appletId appletName f with
    | none =>
      rw [Option.none_or]
    | some x =>
      rw [getLast?_cons, option_or_assoc]

/-- Claim C1, amended: for every enumeration of the child folders in
which no folder's meta check raises, `getResponses` returns under
`appletId` the contribution of the *last* matching folder only — the
name-matched folder's direct items, or the `@id`-matched folder's
subject items, whichever folder is enumerated last — not the union, and
the result therefore depends on the enumeration order. -/
theorem C1_getResponses_amended (appletId appletName : String)
    (folders : List RespFolder)
    (h : ∀ f ∈ folders, folderSafe appletName f = true) :
    getResponses appletId appletName folders =
      .ok ((folders.filterMap (folderContribution appletId appletName)).getLast?) := by
  rw [getResponses, getResponsesFold_last appletId appletName folders none h]
  cases hl : (folders.filterMap (folderContribution appletId appletName)).getLast? <;> rfl

/-- Witness for the amended C1 on a singleton folder list. -/
theorem C1_getResponses_amended_witness :
    getResponses "A" "N" [c1folderId] = .ok (some [2]) := by
  rw [C1_getResponses_amended "A" "N" [c1folderId] (by decide)]
  rfl
/-! ## Response creation (`createResponseItem`, response.py:114) -/

/-- `needle` occurs as a prefix of `haystack`. -/
def startsWithL : List Char → List Char → Bool
  | [], _ => true
  | _ :: _, [] => false
  | a :: as, b :: bs => a == b && startsWithL as bs

/-- Python `needle in haystack` on strings: substring containment. -/
def substrL (n : List Char) : List Char → Bool
  | [] => startsWithL n []
  | b :: bs => startsWithL n (b :: bs) || substrL n bs

/-- Python `key in v`: key lookup for a dict, substring test for a
string, membership for a list; `in` on any other value raises
`TypeError`. -/
def pyIn (key : String) (v : J) : Except PyExc Bool :=
  match v with
  | .obj l => .ok (jhas l key)
  | .str s => .ok (substrL key.data s.data)
  | .arr l => .ok (l.any (fun e => pyEqStr e key))
  | _ => .error .typeError

/-- The label fallback chain of `createResponseItem` (response.py:125-135
for the applet, 145-159 for the activity): `metadata[key]['@id']`, then
`['skos:prefLabel']`, then `['name']`, then the raw value when it is a
string, then the `"[Unknown ...]"` placeholder.  Every guard is of the
form `key in metadata and subkey in metadata[key]`, so when `key` is
absent all guards fail; the inner `in` follows Python semantics (for a
string value it is a substring test, and the subsequent subscript then
raises `TypeError`). -/
def labelChain (metadata : JObj) (key : String) (unknown : String) :
    Except PyExc J :=
  match jget metadata key with
  | none => .ok (J.str unknown)
  | some v =>
    match pyIn "@id" v with
    | .error e => .error e
    | .ok true => pySubscript v "@id"
    | .ok false =>
      match pyIn "skos:prefLabel" v with
      | .error e => .error e
      | .ok true => pySubscript v "skos:prefLabel"
      | .ok false =>
        match pyIn "name" v with
        | .error e => .error e
        | .ok true => pySubscript v "name"
        | .ok false =>
          match v with
          | .str s => .ok (J.str s)
          | _ => .ok (J.str unknown)

/-- Python `str(v)` as used by `"{}".format(v)`.  The claims only
interpolate string labels; the container cases (which Python would
render as full reprs) are outside the modelled fragment. -/
def pyFormatStr : J → String
  | .str s => s
  | .null => "None"
  | .bool true => "True"
  | .bool false => "False"
  | .num n => toString n
  | .arr _ => "[...]"
  | .obj _ => "\x7b...\x7d"

/-- The timestamp strings `createResponseItem` derives from
`datetime.now(tzlocal.get_localzone())`:
`now.strftime("%Y-%m-%d")`, `now.strftime("%H:%M:%S %Z")` and
`now.strftime("%Y-%m-%d-%H-%M-%S-%Z")`. -/
structure Now where
  date : String
  time : String
  stamp : String

/-- The observable effect of one `createResponseItem` call: the folder
path created with `reuseExisting=True` (names as the Python values
passed to `createFolder`), and the created item's name, description and
attached metadata. -/
structure CreatedResponse where
  folderPath : List J
  itemName : String
  itemDescription : String
  itemMetadata : Option JObj

/-- `createResponseItem` (response.py:114): defaults `subject_id` to the
informant's own id, ensures the folder chain
`Responses / <applet label> / <subject_id>`, and creates one item named
by the timestamp whose description interpolates the activity label and
the current date and time; metadata is attached when non-empty. -/
def createResponseItem (informantId : String) (subjectId : Option String)
    (metadata : JObj) (now : Now) : Except PyExc CreatedResponse :=
  let subject := subjectId.getD informantId
  match labelChain metadata "applet" "[Unknown Applet]" with
  | .error e => .error e
  | .ok appletLabel =>
    match labelChain metadata "activity" "[Unknown Activity]" with
    | .error e => .error e
    | .ok activityLabel =>
      .ok
        { folderPath := [J.str "Responses", appletLabel, J.str subject]
          itemName := now.stamp
          itemDescription :=
            pyFormatStr activityLabel ++ " response on " ++ now.date ++
              " at " ++ now.time
          itemMetadata := if metadata.isEmpty then none else some metadata }

/-- The metadata of the specification's `createResponseItem` example. -/
def c9metadata : JObj :=
  [("applet", J.obj [("@id", J.str "A1")]),
   ("activity", J.obj [("name", J.str "Survey")])]

/-- Claim C9: with `applet = {"@id": "A1"}` and
`activity = {"name": "Survey"}`, the created item's description is
`"Survey response on "` followed by the current date and time, inside
the folder path `Responses/A1/<subject_id>` (with `subject_id`
defaulting to the informant); and the labels resolve by the fallback
chain `@id`, then `skos:prefLabel`, then `name`, then the raw string,
then the `"[Unknown ...]"` placeholder (last four conjuncts exercise
each later stage of the chain). -/
theorem C9_createResponseItem (now : Now) (informantId : String)
    (subjectId : Option String) :
    (createResponseItem informantId subjectId c9metadata now = .ok
      { folderPath := [J.str "Responses", J.str "A1",
          J.str (subjectId.getD informantId)]
        itemName := now.stamp
        itemDescription := "Survey response on " ++ now.date ++ " at " ++ now.time
        itemMetadata := some c9metadata }) ∧
    labelChain [("applet", J.obj [("skos:prefLabel", J.str "P")])]
      "applet" "[Unknown Applet]" = .ok (J.str "P") ∧
    labelChain [("applet", J.obj [("name", J.str "Nm")])]
      "applet" "[Unknown Applet]" = .ok (J.str "Nm") ∧
    labelChain [("applet", J.str "Raw")]
      "applet" "[Unknown Applet]" = .ok (J.str "Raw") ∧
    labelChain [] "applet" "[Unknown Applet]" = .ok (J.str "[Unknown Applet]") ∧
    labelChain [("applet", J.obj [("@id", J.str "I"), ("skos:prefLabel", J.str "P")])]
      "applet" "[Unknown Applet]" = .ok (J.str "I") := by
  exact ⟨rfl, rfl, rfl, rfl, rfl, rfl⟩
/-! ## Contextualization (`contextualize`, jsonld_expander.py:56) -/

/-- Python `'_'.join(parts)` / `'/'.join(parts)` over character lists. -/
def joinWith (c : Char) : List (List Char) → List Char
  | [] => []
  | [x] => x
  | x :: y :: t => x ++ c :: joinWith c (y :: t)

/-- `_createContextForStr` (jsonld_expander.py:40): from a dotted string
`s`, derive a context entry (the Python singleton dict `{k: ...}`,
modelled as a prefix/value string pair) and the rewritten term.  With
`sp = s.split('/')`: when the last path component has no dot, the
prefix `k` is the `'_'`-join of `sp[:-1]` with all dots and colons
removed, the entry maps `k` to `'/'.join(sp[:-1]) + '/'`, and the term
is `k + ':' + sp[-1]`; otherwise `k` joins all of `sp`, the entry maps
`k` to the full string, and the term is `k` itself. -/
def _createContextForStr (s : String) : (String × String) × String :=
  let sp := splitOnC '/' s.data
  let lastPart := sp.getLastD []
  if lastPart.contains '.' then
    let k := String.mk (((joinWith '_' sp).filter (fun c => c ≠ '.')).filter
      (fun c => c ≠ ':'))
    ((k, s), k)
  else
    let k := String.mk (((joinWith '_' sp.dropLast).filter (fun c => c ≠ '.')).filter
      (fun c => c ≠ ':'))
    ((k, String.mk (joinWith '/' sp.dropLast ++ ['/'])),
     k ++ ":" ++ String.mk lastPart)

/-- The context entry of `_createContextForStr` as a JSON value (the
singleton dict appended to the `@context` list). -/
def ctxEntryJ (s : String) : J :=
  J.obj [((_createContextForStr s).1.1, J.str (_createContextForStr s).1.2)]

/-- Python `c not in context` for the singleton-dict entry `c`: an
element equals `c` exactly when it is a singleton dict with the same
key and the same string value. -/
def ctxEntryMem (c : String × String) (context : List J) : Bool :=
  context.any fun e =>
    match e with
    | .obj [(k2, .str v2)] => k2 == c.1 && v2 == c.2
    | _ => false

/-- The loop of `_deeperContextualize` (jsonld_expander.py:71): walk the
keys of the inner dict in order; a dotted key with a dict value is
rewritten through `_createContextForStr` and its context entry appended
when not already present (dedup by equality); everything else is copied
unchanged. -/
def deeperAux : JObj → List J → JObj → List J × JObj
  | [], ctx, acc => (ctx, acc)
  | p :: t, ctx, acc =>
    match p.2 with
    | .obj _ =>
      if hasChar '.' p.1 then
        deeperAux t
          (if ctxEntryMem (_createContextForStr p.1).1 ctx then ctx
           else ctx ++ [ctxEntryJ p.1])
          (jset acc (_createContextForStr p.1).2 p.2)
      else deeperAux t ctx (jset acc p.1 p.2)
    | _ => deeperAux t ctx (jset acc p.1 p.2)

/-- `_deeperContextualize` (jsonld_expander.py:71). -/
def _deeperContextualize (ldObj : JObj) (context : List J) : List J × JObj :=
  deeperAux ldObj context []

/-- `ldObj.get('@context', [])` (jsonld_expander.py:58); the `@context`
value is modelled as a JSON array, per JSON-LD (absent means `[]`). -/
def getContextList (ldObj : JObj) : List J :=
  match jget ldObj "@context" with
  | some (.arr l) => l
  | _ => []

/-- The loop of `contextualize` (jsonld_expander.py:59): each dict value
goes through `_deeperContextualize` (threading the context
accumulator); every other value is copied unchanged. -/
def contextualizeAux : JObj → List J → JObj → List J × JObj
  | [], ctx, acc => (ctx, acc)
  | p :: t, ctx, acc =>
    match p.2 with
    | .obj inner =>
      contextualizeAux t (_deeperContextualize inner ctx).1
        (jset acc p.1 (J.obj (_deeperContextualize inner ctx).2))
    | _ => contextualizeAux t ctx (jset acc p.1 p.2)

/-- `contextualize` (jsonld_expander.py:56): walk the object, rewrite
dotted keys of its dict values, and store the accumulated context list
under `@context`. -/
def contextualize (ldObj : JObj) : JObj :=
  jset (contextualizeAux ldObj (getContextList ldObj) []).2 "@context"
    (J.arr (contextualizeAux ldObj (getContextList ldObj) []).1)

/-- Is the value a dict? -/
def isObjB : J → Bool
  | .obj _ => true
  | _ => false

/-- The claim's predicate "contains a nested dict keyed by a dotted
string", to a given nesting depth (structural fuel; any fuel at least
the object's depth is exact). -/
def hasDottedDictKeyFuel : Nat → J → Bool
  | 0, _ => false
  | n + 1, .obj l =>
    l.any (fun p => (hasChar '.' p.1 && isObjB p.2) || hasDottedDictKeyFuel n p.2)
  | n + 1, .arr l => l.any (hasDottedDictKeyFuel n)
  | _ + 1, _ => false

/-- An object with a dotted dict key at depth 3. -/
def c3example : JObj :=
  [("top", J.obj [("mid", J.obj [("a.b", J.obj [("x", J.num 1)])])])]

/-- Counterexample to claim C3 as stated: `contextualize` only rewrites
dotted keys found among the keys of the *top-level dict values* (depth
2); a dotted dict key at depth 3 survives, so for this input the output
still contains a nested dict keyed by a dotted string. -/
theorem C3_counterexample :
    hasDottedDictKeyFuel 5 (J.obj c3example) = true ∧
    hasDottedDictKeyFuel 5 (J.obj (contextualize c3example)) = true ∧
    jget (contextualize c3example) "top" =
      some (J.obj [("mid", J.obj [("a.b", J.obj [("x", J.num 1)])])]) :=
  ⟨rfl, rfl, rfl⟩
theorem char_contains_iff {l : List Char} {c : Char} :
    l.contains c = true ↔ c ∈ l := by
  rw [List.contains_iff_exists_mem_beq]
  constructor
  · rintro ⟨a, ha, hab⟩
    rw [beq_iff_eq] at hab
    subst hab
    exact ha
  · intro h
    exact ⟨c, h, by rw [beq_iff_eq]⟩

theorem noDot_term (s : String) :
    hasChar '.' (_createContextForStr s).2 = false := by
  rw [_createContextForStr]
  by_cases hl : ((splitOnC '/' s.data).getLastD []).contains '.' = true
  · rw [if_pos hl]
    dsimp only
    rw [hasChar, ← Bool.not_eq_true]
    intro h
    rw [char_contains_iff] at h
    have h2 := (List.mem_filter.mp h).1
    have h3 := (List.mem_filter.mp h2).2
    simp at h3
  · rw [if_neg hl]
    dsimp only
    rw [hasChar, ← Bool.not_eq_true]
    intro h
    rw [String.data_append, String.data_append] at h
    rw [char_contains_iff] at h
    rcases List.mem_append.mp h with h | h
    · rcases List.mem_append.mp h with h | h
      · have h2 := (List.mem_filter.mp h).1
        have h3 := (List.mem_filter.mp h2).2
        simp at h3
      · simp at h
    · rw [Bool.not_eq_true] at hl
      rw [← char_contains_iff] at h
      rw [h] at hl
      cases hl
theorem ctxEntryMem_mem (c : String × String) (ctx : List J)
    (h : ctxEntryMem c ctx = true) : J.obj [(c.1, J.str c.2)] ∈ ctx := by
  rw [ctxEntryMem, List.any_eq_true] at h
  obtain ⟨e, he, hcond⟩ := h
  cases e with
  | obj l2 =>
    cases l2 with
    | nil => cases hcond
    | cons q t2 =>
      obtain ⟨k2, v2⟩ := q
      cases v2 with
      | str s2 =>
        cases t2 with
        | cons _ _ => cases hcond
        | nil =>
          rw [Bool.and_eq_true, beq_iff_eq, beq_iff_eq] at hcond
          obtain ⟨rfl, rfl⟩ := hcond
          exact he
      | null => cases hcond
      | bool b => cases hcond
      | num n => cases hcond
      | arr a => cases hcond
      | obj o => cases hcond
  | null => cases hcond
  | bool b => cases hcond
  | num n => cases hcond
  | str s => cases hcond
  | arr a => cases hcond

theorem deeperAux_no_dotted (l : JObj) :
    ∀ ctx acc, (∀ p ∈ acc, isObjB p.2 = true → hasChar '.' p.1 = false) →
    ∀ p ∈ (deeperAux l ctx acc).2, isObjB p.2 = true → hasChar '.' p.1 = false := by
  induction l with
  | nil => intro ctx acc hacc; exact hacc
  | cons p t ih =>
    intro ctx acc hacc
    rw [deeperAux]
    cases hp2 : p.2 with
    | obj inner =>
      by_cases hd : hasChar '.' p.1 = true
      · rw [if_pos hd]
        refine ih _ _ ?_
        refine jset_mem_forall _ _ _ hacc ?_
        intro _
        exact noDot_term p.1
      · rw [if_neg hd]
        refine ih _ _ ?_
        refine jset_mem_forall _ _ _ hacc ?_
        intro _
        rw [Bool.not_eq_true] at hd
        exact hd
    | null =>
      refine ih _ _ (jset_mem_forall _ _ _ hacc ?_)
      intro hob; cases hob
    | bool b =>
      refine ih _ _ (jset_mem_forall _ _ _ hacc ?_)
      intro hob; cases hob
    | num n =>
      refine ih _ _ (jset_mem_forall _ _ _ hacc ?_)
      intro hob; cases hob
    | str s =>
      refine ih _ _ (jset_mem_forall _ _ _ hacc ?_)
      intro hob; cases hob
    | arr a =>
      refine ih _ _ (jset_mem_forall _ _ _ hacc ?_)
      intro hob; cases hob

theorem deeperAux_ctx_mono (l : JObj) :
    ∀ ctx acc x, x ∈ ctx → x ∈ (deeperAux l ctx acc).1 := by
  induction l with
  | nil => intro ctx acc x hx; exact hx
  | cons p t ih =>
    intro ctx acc x hx
    rw [deeperAux]
    cases p.2 with
    | obj inner =>
      by_cases hd : hasChar '.' p.1 = true
      · rw [if_pos hd]
        refine ih _ _ x ?_
        split
        · exact hx
        · exact List.mem_append_left _ hx
      · rw [if_neg hd]
        exact ih _ _ x hx
    | null => exact ih _ _ x hx
    | bool b => exact ih _ _ x hx
    | num n => exact ih _ _ x hx
    | str s => exact ih _ _ x hx
    | arr a => exact ih _ _ x hx

theorem deeperAux_ctx_adds (l : JObj) :
    ∀ ctx acc k w, (k, J.obj w) ∈ l → hasChar '.' k = true →
    ctxEntryJ k ∈ (deeperAux l ctx acc).1 := by
  induction l with
  | nil => intro ctx acc k w hm; exact absurd hm (List.not_mem_nil _)
  | cons p t ih =>
    intro ctx acc k w hm hdot
    rcases List.mem_cons.mp hm with hm | hm
    · subst hm
      rw [deeperAux]
      dsimp only
      rw [if_pos hdot]
      refine deeperAux_ctx_mono t _ _ _ ?_
      split
      · rename_i hmem
        exact ctxEntryMem_mem _ _ hmem
      · exact List.mem_append_right _ (List.mem_singleton.mpr rfl)
    · rw [deeperAux]
      cases p.2 with
      | obj inner =>
        by_cases hd : hasChar '.' p.1 = true
        · rw [if_pos hd]
          exact ih _ _ k w hm hdot
        · rw [if_neg hd]
          exact ih _ _ k w hm hdot
      | null => exact ih _ _ k w hm hdot
      | bool b => exact ih _ _ k w hm hdot
      | num n => exact ih _ _ k w hm hdot
      | str s => exact ih _ _ k w hm hdot
      | arr a => exact ih _ _ k w hm hdot

theorem contextualizeAux_ctx_mono (l : JObj) :
    ∀ ctx acc x, x ∈ ctx → x ∈ (contextualizeAux l ctx acc).1 := by
  induction l with
  | nil => intro ctx acc x hx; exact hx
  | cons p t ih =>
    intro ctx acc x hx
    rw [contextualizeAux]
    cases p.2 with
    | obj inner => exact ih _ _ x (deeperAux_ctx_mono inner ctx [] x hx)
    | null => exact ih _ _ x hx
    | bool b => exact ih _ _ x hx
    | num n => exact ih _ _ x hx
    | str s => exact ih _ _ x hx
    | arr a => exact ih _ _ x hx

theorem contextualizeAux_ctx_adds (l : JObj) :
    ∀ ctx acc t inner k w, (t, J.obj inner) ∈ l → (k, J.obj w) ∈ inner →
    hasChar '.' k = true → ctxEntryJ k ∈ (contextualizeAux l ctx acc).1 := by
  induction l with
  | nil => intro ctx acc t inner k w hm; exact absurd hm (List.not_mem_nil _)
  | cons p t2 ih =>
    intro ctx acc t inner k w hm hin hdot
    rcases List.mem_cons.mp hm with hm | hm
    · subst hm
      rw [contextualizeAux]
      dsimp only
      exact contextualizeAux_ctx_mono t2 _ _ _
        (deeperAux_ctx_adds inner ctx [] k w hin hdot)
    · rw [contextualizeAux]
      cases p.2 with
      | obj inner2 => exact ih _ _ t inner k w hm hin hdot
      | null => exact ih _ _ t inner k w hm hin hdot
      | bool b => exact ih _ _ t inner k w hm hin hdot
      | num n => exact ih _ _ t inner k w hm hin hdot
      | str s => exact ih _ _ t inner k w hm hin hdot
      | arr a => exact ih _ _ t inner k w hm hin hdot

theorem contextualizeAux_no_dotted (l : JObj) :
    ∀ ctx acc,
    (∀ p ∈ acc, ∀ i2, p.2 = J.obj i2 →
      ∀ q ∈ i2, isObjB q.2 = true → hasChar '.' q.1 = false) →
    ∀ p ∈ (contextualizeAux l ctx acc).2, ∀ i2, p.2 = J.obj i2 →
      ∀ q ∈ i2, isObjB q.2 = true → hasChar '.' q.1 = false := by
  induction l with
  | nil => intro ctx acc hacc; exact hacc
  | cons p t ih =>
    intro ctx acc hacc
    rw [contextualizeAux]
    cases hp2 : p.2 with
    | obj inner =>
      refine ih _ _ ?_
      refine jset_mem_forall _ _ _ hacc ?_
      intro i2 hi2 q hq hob
      injection hi2 with hi2
      subst hi2
      exact deeperAux_no_dotted inner ctx []
        (by intro r hr; exact absurd hr (List.not_mem_nil _)) q hq hob
    | null =>
      refine ih _ _ (jset_mem_forall _ _ _ hacc ?_)
      intro i2 hi2; cases hi2
    | bool b =>
      refine ih _ _ (jset_mem_forall _ _ _ hacc ?_)
      intro i2 hi2; cases hi2
    | num n =>
      refine ih _ _ (jset_mem_forall _ _ _ hacc ?_)
      intro i2 hi2; cases hi2
    | str s =>
      refine ih _ _ (jset_mem_forall _ _ _ hacc ?_)
      intro i2 hi2; cases hi2
    | arr a =>
      refine ih _ _ (jset_mem_forall _ _ _ hacc ?_)
      intro i2 hi2; cases hi2

/-- Claim C3, amended: the rewriting applies to the keys of the
*top-level dict values* only (depth 2).  For every dotted key `k` with
a dict value inside some top-level dict value of the input,
`contextualize`'s output `@context` list contains the entry
`_createContextForStr` derives for `k` (whose value side is `k`'s
namespace prefix), and no dict value of the output has a dotted key
with a dict value among its own keys; dotted keys at greater depth are
not rewritten (see the counterexample). -/
theorem C3_contextualize_amended (ldObj : JObj) (t : String) (inner : JObj)
    (k : String) (w : JObj)
    (hmem : (t, J.obj inner) ∈ ldObj) (hin : (k, J.obj w) ∈ inner)
    (hdot : hasChar '.' k = true) :
    (∃ ctx, jget (contextualize ldObj) "@context" = some (J.arr ctx) ∧
      ctxEntryJ k ∈ ctx) ∧
    (∀ t2 inner2, (t2, J.obj inner2) ∈ contextualize ldObj →
      ∀ k2 w2, (k2, J.obj w2) ∈ inner2 → hasChar '.' k2 = false) := by
  constructor
  · refine ⟨(contextualizeAux ldObj (getContextList ldObj) []).1, ?_, ?_⟩
    · rw [contextualize]
      exact jget_jset_self _ _ _
    · exact contextualizeAux_ctx_adds ldObj _ [] t inner k w hmem hin hdot
  · intro t2 inner2 h2 k2 w2 hk2
    rw [contextualize] at h2
    have hall := jset_mem_forall
      (P := fun q => ∀ i2, q.2 = J.obj i2 →
        ∀ r ∈ i2, isObjB r.2 = true → hasChar '.' r.1 = false)
      ((contextualizeAux ldObj (getContextList ldObj) []).2) "@context"
      (J.arr (contextualizeAux ldObj (getContextList ldObj) []).1)
      (contextualizeAux_no_dotted ldObj _ []
        (by intro p hp; exact absurd hp (List.not_mem_nil _)))
      (by intro i2 hi2; cases hi2)
    exact hall (t2, J.obj inner2) h2 inner2 rfl (k2, J.obj w2) hk2 rfl

/-- Witness for the amended C3 at a concrete nested object. -/
theorem C3_contextualize_amended_witness :
    ∃ ctx, jget (contextualize [("a", J.obj [("x.y", J.obj [])])]) "@context" =
      some (J.arr ctx) ∧ ctxEntryJ "x.y" ∈ ctx :=
  (C3_contextualize_amended [("a", J.obj [("x.y", J.obj [])])] "a"
    [("x.y", J.obj [])] "x.y" []
    (List.mem_singleton.mpr rfl) (List.mem_singleton.mpr rfl) rfl).1
/-! ## Case conversion (`camelCase` / `snake_case`,
jsonld_expander.py:572-607) -/

/-- Worker for the substitution of
`first_cap_re = re.compile('(.)([A-Z][a-z]+)')` with replacement
`r'\1_\2'`: scanning left to right, a match is any character other than
a newline, followed by an uppercase letter and a maximal nonempty run
of lowercase letters; the replacement inserts `_` after the first
character, and scanning resumes after the match (matches do not
overlap).  Structurally recursive on a fuel the wrapper instantiates
with the string length (each step shortens the string by at least one
while spending one fuel, so the fuel never runs out). -/
def sub1Aux : Nat → List Char → List Char
  | 0, l => l
  | fuel + 1, l =>
    match l with
    | a :: b :: c :: t =>
      if a != '\n' && isUp b && isLo c then
        a :: '_' :: b :: c :: (t.takeWhile isLo ++ sub1Aux fuel (t.dropWhile isLo))
      else a :: sub1Aux fuel (b :: c :: t)
    | l2 => l2

/-- `first_cap_re.sub(r'\1_\2', s)` (jsonld_expander.py:602). -/
def sub1 (l : List Char) : List Char := sub1Aux l.length l

/-- The substitution of `all_cap_re = re.compile('([a-z0-9])([A-Z])')`
with replacement `r'\1_\2'`: insert `_` between a lowercase letter or
digit and a following uppercase letter.  (The scan resumes after a
match, but a skipped pair starts with the uppercase letter and can
never match, so the non-overlap rule is invisible.) -/
def sub2 : List Char → List Char
  | a :: b :: t =>
    if (isLo a || isDig a) && isUp b then a :: '_' :: b :: sub2 t
    else a :: sub2 (b :: t)
  | l => l

/-- `snake_case` (jsonld_expander.py:588): the two regex substitutions
followed by `str.lower()` (ASCII model). -/
def snake_case (camelCaseStr : String) : String :=
  String.mk ((sub2 (sub1 camelCaseStr.data)).map lowerChar)

/-- A cased (alphabetic) character in the ASCII model, as considered by
Python `str.title()`. -/
def isAlphaB (c : Char) : Bool := isUp c || isLo c

/-- The scan of Python `str.title()`: a letter is uppercased when the
previous character was not a letter and lowercased otherwise; other
characters pass through and reset the word boundary.  The flag is true
when the previous character was a letter. -/
def titleGo : Bool → List Char → List Char
  | _, [] => []
  | prevAlpha, c :: t =>
    if isAlphaB c then
      (if prevAlpha then lowerChar c else upperChar c) :: titleGo true t
    else c :: titleGo false t

/-- Python `word.title()`. -/
def titleCase (l : List Char) : List Char := titleGo false l

/-- `words[0] + ''.join([word.title() for word in words[1:]])`
(jsonld_expander.py:581): the first word kept as is, the rest
`title()`-cased and concatenated (`splitOnC` never returns `[]`, so the
`[]` case is unreachable). -/
def camelWords : List (List Char) → List Char
  | [] => []
  | w :: ws => w ++ (ws.map titleCase).flatten

/-- `camelCase` (jsonld_expander.py:572): split on `_`, keep the first
word as is, and append the `title()`-cased remaining words. -/
def camelCase (snakeStr : String) : String :=
  String.mk (camelWords (splitOnC '_' snakeStr.data))

/-- Alphanumeric in the ASCII model. -/
def isAlnum (c : Char) : Bool := isUp c || isLo c || isDig c

/-- No two adjacent uppercase letters and no digit adjacent to an
uppercase letter, on any adjacent pair. -/
def pairsOK : List Char → Bool
  | a :: b :: t =>
    !(isUp a && isUp b) && !(isDig a && isUp b) && !(isUp a && isDig b) &&
      pairsOK (b :: t)
  | _ => true

/-- No digit immediately followed by a lowercase letter. -/
def noDigitLower : List Char → Bool
  | a :: b :: t => !(isDig a && isLo b) && noDigitLower (b :: t)
  | _ => true

/-- From the first uppercase letter on, no digit immediately followed
by a (lowercase) letter. -/
def afterUpperOK : List Char → Bool
  | [] => true
  | a :: t => if isUp a then noDigitLower (a :: t) else afterUpperOK t

/-- The claim's class as stated: a camelCase identifier (nonempty,
starting with a lowercase letter, alphanumeric, no two adjacent
uppercase letters) with no digit adjacent to an uppercase letter. -/
def camelIdent (l : List Char) : Bool :=
  match l with
  | [] => false
  | c :: _ => isLo c && l.all isAlnum && pairsOK l

/-- The amended class: additionally, after the first uppercase letter
no digit is immediately followed by a letter. -/
def goodCamel (l : List Char) : Bool :=
  camelIdent l && afterUpperOK l

/-- `_` inserted before every uppercase letter (used for non-initial
positions). -/
def insTail : List Char → List Char
  | [] => []
  | a :: t => if isUp a then '_' :: a :: insTail t else a :: insTail t

/-- `_` inserted before every uppercase letter except at position 0:
what the two substitutions jointly produce on a class string. -/
def ins : List Char → List Char
  | [] => []
  | a :: t => a :: insTail t

/-! ### Character arithmetic -/

theorem char_toNat_ofNat_valid {n : Nat} (h : n.isValidChar) :
    (Char.ofNat n).toNat = n := by
  rw [Char.ofNat, dif_pos h]
  rfl

theorem isUp_iff {c : Char} : isUp c = true ↔ 65 ≤ c.toNat ∧ c.toNat ≤ 90 := by
  rw [isUp, Bool.and_eq_true, decide_eq_true_iff, decide_eq_true_iff]

theorem isLo_iff {c : Char} : isLo c = true ↔ 97 ≤ c.toNat ∧ c.toNat ≤ 122 := by
  rw [isLo, Bool.and_eq_true, decide_eq_true_iff, decide_eq_true_iff]

theorem isDig_iff {c : Char} : isDig c = true ↔ 48 ≤ c.toNat ∧ c.toNat ≤ 57 := by
  rw [isDig, Bool.and_eq_true, decide_eq_true_iff, decide_eq_true_iff]

theorem lowerChar_toNat {c : Char} (h : isUp c = true) :
    (lowerChar c).toNat = c.toNat + 32 := by
  rw [lowerChar, if_pos h]
  have hn := isUp_iff.mp h
  exact char_toNat_ofNat_valid (Or.inl (by omega))

theorem lowerChar_isLo {c : Char} (h : isUp c = true) :
    isLo (lowerChar c) = true := by
  rw [isLo_iff, lowerChar_toNat h]
  have := isUp_iff.mp h
  omega

theorem lowerChar_id {c : Char} (h : isUp c = false) : lowerChar c = c := by
  rw [lowerChar, if_neg (by rw [h]; exact Bool.false_ne_true)]

theorem isUp_lowerChar (c : Char) : isUp (lowerChar c) = false := by
  by_cases h : isUp c = true
  · rw [← Bool.not_eq_true, isUp_iff, lowerChar_toNat h]
    have := isUp_iff.mp h
    omega
  · rw [Bool.not_eq_true] at h
    rw [lowerChar_id h]
    exact h

theorem upperChar_lowerChar {c : Char} (h : isUp c = true) :
    upperChar (lowerChar c) = c := by
  have h1 : (lowerChar c).toNat = c.toNat + 32 := lowerChar_toNat h
  have h2 : isLo (lowerChar c) = true := lowerChar_isLo h
  rw [upperChar, if_pos h2]
  have hup := isUp_iff.mp h
  have h3 : ((lowerChar c).toNat - 32).isValidChar := Or.inl (by omega)
  apply Char.eq_of_val_eq
  apply UInt32.toNat.inj
  show (Char.ofNat ((lowerChar c).toNat - 32)).toNat = c.toNat
  rw [char_toNat_ofNat_valid h3, h1]
  omega

theorem isLo_not_isUp {c : Char} (h : isLo c = true) : isUp c = false := by
  rw [← Bool.not_eq_true, isUp_iff]
  have := isLo_iff.mp h
  omega

theorem isDig_not_isUp {c : Char} (h : isDig c = true) : isUp c = false := by
  rw [← Bool.not_eq_true, isUp_iff]
  have := isDig_iff.mp h
  omega

theorem isDig_not_isAlphaB {c : Char} (h : isDig c = true) :
    isAlphaB c = false := by
  rw [isAlphaB]
  have := isDig_iff.mp h
  rw [← Bool.not_eq_true, Bool.or_eq_true, isUp_iff, isLo_iff]
  omega

theorem isLo_isAlphaB {c : Char} (h : isLo c = true) : isAlphaB c = true := by
  rw [isAlphaB, h, Bool.or_true]

theorem isAlnum_ne_newline {c : Char} (h : isAlnum c = true) :
    (c != '\n') = true := by
  rw [bne_iff_ne]
  intro hc
  subst hc
  rw [isAlnum, Bool.or_eq_true, Bool.or_eq_true, isUp_iff, isLo_iff, isDig_iff] at h
  have : ('\n').toNat = 10 := rfl
  omega

theorem isAlnum_ne_underscore {c : Char} (h : isAlnum c = true) :
    c ≠ '_' := by
  intro hc
  subst hc
  rw [isAlnum, Bool.or_eq_true, Bool.or_eq_true, isUp_iff, isLo_iff, isDig_iff] at h
  have : ('_').toNat = 95 := rfl
  omega

/-! ### Claim C10: no uppercase output, idempotence -/

theorem map_lowerChar_no_up (l : List Char) :
    ∀ c ∈ l.map lowerChar, isUp c = false := by
  intro c hc
  obtain ⟨d, _, rfl⟩ := List.mem_map.mp hc
  exact isUp_lowerChar d

theorem sub1Aux_id_of_no_up :
    ∀ (fuel : Nat) (l : List Char), (∀ c ∈ l, isUp c = false) →
    sub1Aux fuel l = l := by
  intro fuel
  induction fuel with
  | zero => intro l h; rfl
  | succ n ih =>
    intro l h
    match l with
    | [] => rfl
    | [a] => rfl
    | [a, b] => rfl
    | a :: b :: c :: t =>
      rw [sub1Aux]
      have hb : isUp b = false := h b (by simp)
      rw [if_neg (by rw [hb]; simp)]
      rw [ih (b :: c :: t) (fun x hx => h x (List.mem_cons_of_mem _ hx))]

theorem sub2_id_of_no_up :
    ∀ (l : List Char), (∀ c ∈ l, isUp c = false) → sub2 l = l := by
  intro l
  induction l with
  | nil => intro h; rfl
  | cons a t ih =>
    intro h
    match t, ih with
    | [], _ => rfl
    | b :: t2, ih =>
      rw [sub2]
      have hb : isUp b = false := h b (by simp)
      rw [if_neg (by rw [hb]; simp)]
      rw [ih (fun x hx => h x (List.mem_cons_of_mem _ hx))]

theorem map_lowerChar_id_of_no_up (l : List Char)
    (h : ∀ c ∈ l, isUp c = false) : l.map lowerChar = l := by
  induction l with
  | nil => rfl
  | cons a t ih =>
    rw [List.map_cons, lowerChar_id (h a (List.mem_cons_self _ _)),
      ih (fun x hx => h x (List.mem_cons_of_mem _ hx))]

/-- Claim C10: `snake_case` output contains no (ASCII) uppercase
character, and `snake_case` is idempotent. -/
theorem C10_snake_case_no_upper_idempotent (s : String) :
    (∀ c ∈ (snake_case s).data, isUp c = false) ∧
    snake_case (snake_case s) = snake_case s := by
  have hno : ∀ c ∈ (snake_case s).data, isUp c = false := by
    rw [snake_case]
    exact map_lowerChar_no_up _
  refine ⟨hno, ?_⟩
  show String.mk ((sub2 (sub1 (snake_case s).data)).map lowerChar) = snake_case s
  rw [sub1, sub1Aux_id_of_no_up _ _ hno, sub2_id_of_no_up _ hno,
    map_lowerChar_id_of_no_up _ hno]

/-- Counterexample to claim C7 as stated: `"aBc2d"` is a camelCase
identifier with no digit adjacent to an uppercase letter, yet the round
trip produces `"aBc2D"`: `snake_case` gives `"a_bc2d"`, and `title()`
re-uppercases the letter following the digit inside the word `"bc2d"`. -/
theorem C7_counterexample :
    camelIdent "aBc2d".data = true ∧
    snake_case "aBc2d" = "a_bc2d" ∧
    camelCase (snake_case "aBc2d") = "aBc2D" ∧
    ("aBc2D" : String) ≠ "aBc2d" :=
  ⟨rfl, rfl, rfl, by decide⟩
/-! ### The two substitutions on class strings -/

theorem sub1Aux_nil (fuel : Nat) : sub1Aux fuel [] = [] := by
  cases fuel <;> rfl

theorem sub1Aux_head (fuel : Nat) (a : Char) (t : List Char) :
    ∃ z, sub1Aux fuel (a :: t) = a :: z := by
  cases fuel with
  | zero => exact ⟨t, rfl⟩
  | succ n =>
    match t with
    | [] => exact ⟨[], rfl⟩
    | [b] => exact ⟨[b], rfl⟩
    | b :: c :: t2 =>
      rw [sub1Aux]
      by_cases h : (a != '\n' && isUp b && isLo c) = true
      · rw [if_pos h]
        exact ⟨_, rfl⟩
      · rw [if_neg h]
        exact ⟨_, rfl⟩

theorem isUp_not_isLo {c : Char} (h : isUp c = true) : isLo c = false := by
  rw [← Bool.not_eq_true, isLo_iff]
  have := isUp_iff.mp h
  omega

theorem isUp_not_isDig {c : Char} (h : isUp c = true) : isDig c = false := by
  rw [← Bool.not_eq_true, isDig_iff]
  have := isUp_iff.mp h
  omega

theorem sub2_cons_up {x : Char} (h : isUp x = true) (z : List Char) :
    sub2 (x :: z) = x :: sub2 z := by
  match z with
  | [] => rfl
  | b :: t =>
    rw [sub2]
    rw [if_neg ?_]
    intro hc
    rw [Bool.and_eq_true, Bool.or_eq_true] at hc
    rcases hc.1 with hl | hd
    · rw [isUp_not_isLo h] at hl
      cases hl
    · rw [isUp_not_isDig h] at hd
      cases hd

/-- Head test of a character list. -/
def headUp : List Char → Bool
  | [] => false
  | x :: _ => isUp x

theorem sub2_append_no_up (u v : List Char)
    (hu : ∀ x ∈ u, isUp x = false) (hv : headUp v = false) :
    sub2 (u ++ v) = u ++ sub2 v := by
  induction u with
  | nil => rfl
  | cons x u' ih =>
    match u' with
    | [] =>
      match v, hv with
      | [], _ => rfl
      | b :: t, hv =>
        rw [List.singleton_append, sub2, if_neg (by
          intro hc
          rw [Bool.and_eq_true] at hc
          rw [headUp] at hv
          rw [hv] at hc
          exact Bool.false_ne_true hc.2)]
        rfl
    | y :: u'' =>
      have hy : isUp y = false :=
        hu y (List.mem_cons_of_mem _ (List.mem_cons_self _ _))
      rw [show (x :: y :: u'') ++ v = x :: (y :: (u'' ++ v)) from rfl]
      rw [sub2, if_neg (by
        intro hc
        rw [Bool.and_eq_true] at hc
        rw [hy] at hc
        exact Bool.false_ne_true hc.2)]
      rw [show y :: (u'' ++ v) = (y :: u'') ++ v from rfl]
      rw [ih (fun w hw => hu w (List.mem_cons_of_mem _ hw))]
      rfl

theorem sub2_append_lo_up (u : List Char) (d : Char) (z : List Char)
    (hu : ∀ x ∈ u, isLo x = true) (hne : u ≠ []) (hd : isUp d = true) :
    sub2 (u ++ d :: z) = u ++ '_' :: d :: sub2 z := by
  induction u with
  | nil => exact absurd rfl hne
  | cons x u' ih =>
    match u' with
    | [] =>
      rw [List.singleton_append, sub2, if_pos (by
        rw [Bool.and_eq_true, Bool.or_eq_true]
        exact ⟨Or.inl (hu x (List.mem_cons_self _ _)), hd⟩)]
      rfl
    | y :: u'' =>
      have hy : isLo y = true :=
        hu y (List.mem_cons_of_mem _ (List.mem_cons_self _ _))
      rw [show (x :: y :: u'') ++ d :: z = x :: (y :: (u'' ++ d :: z)) from rfl]
      rw [sub2, if_neg (by
        intro hc
        rw [Bool.and_eq_true] at hc
        rw [isLo_not_isUp hy] at hc
        exact Bool.false_ne_true hc.2)]
      rw [show y :: (u'' ++ d :: z) = (y :: u'') ++ d :: z from rfl]
      rw [ih (fun w hw => hu w (List.mem_cons_of_mem _ hw)) (by intro hh; cases hh)]
      rfl

theorem insTail_append_no_up (u v : List Char)
    (hu : ∀ x ∈ u, isUp x = false) : insTail (u ++ v) = u ++ insTail v := by
  induction u with
  | nil => rfl
  | cons x u' ih =>
    rw [List.cons_append, insTail,
      if_neg (by rw [hu x (List.mem_cons_self _ _)]; exact Bool.false_ne_true)]
    rw [ih (fun w hw => hu w (List.mem_cons_of_mem _ hw)), List.cons_append]

theorem insTail_id_of_no_up (l : List Char) (h : ∀ x ∈ l, isUp x = false) :
    insTail l = l := by
  induction l with
  | nil => rfl
  | cons x t ih =>
    rw [insTail,
      if_neg (by rw [h x (List.mem_cons_self _ _)]; exact Bool.false_ne_true),
      ih (fun w hw => h w (List.mem_cons_of_mem _ hw))]

theorem insTail_cons_up {a : Char} (h : isUp a = true) (t : List Char) :
    insTail (a :: t) = '_' :: a :: insTail t := by
  rw [show insTail (a :: t) =
    (if isUp a = true then '_' :: a :: insTail t else a :: insTail t) from rfl,
    if_pos h]

theorem insTail_cons_nup {a : Char} (h : isUp a = false) (t : List Char) :
    insTail (a :: t) = a :: insTail t := by
  rw [show insTail (a :: t) =
    (if isUp a = true then '_' :: a :: insTail t else a :: insTail t) from rfl,
    if_neg (by rw [h]; exact Bool.false_ne_true)]

theorem pairsOK_tail {a : Char} {t : List Char} (h : pairsOK (a :: t) = true) :
    pairsOK t = true := by
  match t with
  | [] => rfl
  | b :: t2 =>
    rw [pairsOK] at h
    rw [Bool.and_eq_true] at h
    exact h.2

theorem pairsOK_dropWhile (p : Char → Bool) (l : List Char)
    (h : pairsOK l = true) : pairsOK (l.dropWhile p) = true := by
  induction l with
  | nil => exact h
  | cons x t ih =>
    rw [List.dropWhile_cons]
    by_cases hp : p x = true
    · rw [if_pos hp]
      exact ih (pairsOK_tail h)
    · rw [if_neg hp]
      exact h

theorem all_tail {q : Char → Bool} {a : Char} {t : List Char}
    (h : (a :: t).all q = true) : t.all q = true := by
  rw [List.all_cons, Bool.and_eq_true] at h
  exact h.2

theorem all_dropWhile (q p : Char → Bool) (l : List Char)
    (h : l.all q = true) : (l.dropWhile p).all q = true := by
  induction l with
  | nil => exact h
  | cons x t ih =>
    rw [List.dropWhile_cons]
    by_cases hp : p x = true
    · rw [if_pos hp]
      exact ih (all_tail h)
    · rw [if_neg hp]
      exact h

theorem dropWhile_head_false (p : Char → Bool) (l : List Char) (x : Char)
    (xs : List Char) (h : l.dropWhile p = x :: xs) : p x = false := by
  induction l with
  | nil => cases h
  | cons y t ih =>
    rw [List.dropWhile_cons] at h
    by_cases hp : p y = true
    · rw [if_pos hp] at h
      exact ih h
    · rw [if_neg hp] at h
      injection h with h1 _
      subst h1
      rw [Bool.not_eq_true] at hp
      exact hp

theorem lo_of_alnum_before_up {a b : Char} (ha : isAlnum a = true)
    (hb : isUp b = true) (h1 : (!(isUp a && isUp b)) = true)
    (h2 : (!(isDig a && isUp b)) = true) : isLo a = true := by
  rw [Bool.not_eq_true'] at h1 h2
  cases hup : isUp a with
  | true => rw [hup, hb] at h1; cases h1
  | false =>
    cases hdig : isDig a with
    | true => rw [hdig, hb] at h2; cases h2
    | false =>
      rw [isAlnum, hup, hdig] at ha
      simpa using ha

theorem gen_sub : ∀ (fuel : Nat) (l : List Char), l.length ≤ fuel →
    l.all isAlnum = true → pairsOK l = true →
    sub2 (sub1Aux fuel l) = ins l := by
  intro fuel
  induction fuel with
  | zero =>
    intro l hlen _ _
    rw [Nat.le_zero] at hlen
    rw [List.length_eq_zero] at hlen
    subst hlen
    rfl
  | succ n ih =>
    intro l hlen hall hpairs
    match l with
    | [] => rfl
    | [a] => rfl
    | [a, b] =>
      show sub2 [a, b] = ins [a, b]
      by_cases hub : isUp b = true
      · have hpa : pairsOK [a, b] = true := hpairs
        rw [pairsOK] at hpa
        rw [Bool.and_eq_true, Bool.and_eq_true, Bool.and_eq_true] at hpa
        have ha : isAlnum a = true := by
          rw [List.all_cons, Bool.and_eq_true] at hall
          exact hall.1
        have hlo : isLo a = true :=
          lo_of_alnum_before_up ha hub hpa.1.1.1 hpa.1.1.2
        rw [sub2, if_pos (by rw [Bool.and_eq_true, Bool.or_eq_true]; exact ⟨Or.inl hlo, hub⟩)]
        rw [ins, insTail_cons_up hub]
        rfl
      · rw [Bool.not_eq_true] at hub
        rw [sub2, if_neg (by rw [hub]; simp)]
        rw [ins, insTail, if_neg (by rw [hub]; exact Bool.false_ne_true)]
        rfl
    | a :: b :: c :: t =>
      have ha : isAlnum a = true := by
        rw [List.all_cons, Bool.and_eq_true] at hall
        exact hall.1
      have hallbct : (b :: c :: t).all isAlnum = true := all_tail hall
      have hb_alnum : isAlnum b = true := by
        rw [List.all_cons, Bool.and_eq_true] at hallbct
        exact hallbct.1
      have hpaar : pairsOK (a :: b :: c :: t) = true := hpairs
      rw [pairsOK, Bool.and_eq_true, Bool.and_eq_true, Bool.and_eq_true] at hpaar
      by_cases hmatch : (a != '\n' && isUp b && isLo c) = true
      · -- sub1 matches here
        have hm := hmatch
        rw [Bool.and_eq_true, Bool.and_eq_true] at hm
        have hub : isUp b = true := hm.1.2
        have hlc : isLo c = true := hm.2
        have hla : isLo a = true :=
          lo_of_alnum_before_up ha hub hpaar.1.1.1 hpaar.1.1.2
        rw [sub1Aux, if_pos hmatch]
        -- peel three sub2 steps
        rw [sub2, if_neg (by
          intro hc2
          rw [Bool.and_eq_true] at hc2
          exact absurd hc2.2 (by decide))]
        rw [show ('_' :: b :: c :: (t.takeWhile isLo ++ sub1Aux n (t.dropWhile isLo)))
            = '_' :: (b :: c :: (t.takeWhile isLo ++ sub1Aux n (t.dropWhile isLo))) from rfl]
        rw [sub2, if_neg (by
          intro hc2
          rw [Bool.and_eq_true] at hc2
          exact absurd hc2.1 (by decide))]
        rw [sub2, if_neg (by
          intro hc2
          rw [Bool.and_eq_true] at hc2
          rw [isLo_not_isUp hlc] at hc2
          cases hc2.2)]
        -- rhs
        rw [ins, insTail_cons_up hub, insTail_cons_nup (isLo_not_isUp hlc)]
        have hrun : ∀ x ∈ t.takeWhile isLo, isLo x = true :=
          fun x hx => List.mem_takeWhile_imp hx
        have htdec : t = t.takeWhile isLo ++ t.dropWhile isLo :=
          (List.takeWhile_append_dropWhile isLo t).symm
        cases ht' : t.dropWhile isLo with
        | nil =>
          rw [sub1Aux_nil, List.append_nil]
          have htrun : t = t.takeWhile isLo := by
            conv_lhs => rw [htdec]
            rw [ht', List.append_nil]
          have hnoup : ∀ x ∈ (c :: t.takeWhile isLo), isUp x = false := by
            intro x hx
            rcases List.mem_cons.mp hx with rfl | hx
            · exact isLo_not_isUp hlc
            · exact isLo_not_isUp (hrun x hx)
          rw [sub2_id_of_no_up _ hnoup]
          rw [congrArg insTail htrun]
          rw [insTail_id_of_no_up _ (fun x hx => isLo_not_isUp (hrun x hx))]
        | cons d t2 =>
          have hdlo : isLo d = false := dropWhile_head_false isLo t d t2 ht'
          have hd_alnum : isDig d = true ∨ isUp d = true := by
            have halt : t.all isAlnum = true := all_tail (all_tail hallbct)
            have := all_dropWhile isAlnum isLo t halt
            rw [ht', List.all_cons, Bool.and_eq_true] at this
            have hda := this.1
            rw [isAlnum, Bool.or_eq_true, Bool.or_eq_true] at hda
            rcases hda with (h | h) | h
            · exact Or.inr h
            · rw [hdlo] at h; cases h
            · exact Or.inl h
          obtain ⟨z, hz⟩ := sub1Aux_head n d t2
          have hlen2 : (d :: t2).length ≤ n := by
            have h1 : (t.dropWhile isLo).length ≤ t.length := length_dropWhile_le _ _
            rw [ht'] at h1
            have h2 : (a :: b :: c :: t).length ≤ n + 1 := hlen
            simp only [List.length_cons] at h1 h2 ⊢
            omega
          have hallT : (d :: t2).all isAlnum = true := by
            have halt : t.all isAlnum = true := all_tail (all_tail hallbct)
            have := all_dropWhile isAlnum isLo t halt
            rw [ht'] at this
            exact this
          have hpairsT : pairsOK (d :: t2) = true := by
            have hp3 : pairsOK t = true :=
              pairsOK_tail (pairsOK_tail (pairsOK_tail hpairs))
            have := pairsOK_dropWhile isLo t hp3
            rw [ht'] at this
            exact this
          have hIH : sub2 (sub1Aux n (d :: t2)) = ins (d :: t2) :=
            ih (d :: t2) hlen2 hallT hpairsT
          have htsplit : insTail t = insTail (t.takeWhile isLo ++ (d :: t2)) := by
            refine congrArg insTail ?_
            conv_lhs => rw [htdec]
            rw [ht']
          rcases hd_alnum with hdig | hup
          · -- digit at t': no boundary insertion
            rw [hz]
            rw [show (c :: (t.takeWhile isLo ++ d :: z)) =
              ((c :: t.takeWhile isLo) ++ d :: z) from rfl]
            rw [sub2_append_no_up (c :: t.takeWhile isLo) (d :: z) ?hnoup ?hhead]
            case hnoup =>
              intro x hx
              rcases List.mem_cons.mp hx with rfl | hx
              · exact isLo_not_isUp hlc
              · exact isLo_not_isUp (hrun x hx)
            case hhead =>
              rw [headUp]
              exact isDig_not_isUp hdig
            rw [← hz, hIH]
            rw [htsplit]
            rw [insTail_append_no_up _ _ (fun x hx => isLo_not_isUp (hrun x hx))]
            rw [insTail_cons_nup (isDig_not_isUp hdig)]
            rw [ins]
            rfl
          · -- upper at t': boundary insertion by sub2
            rw [hz]
            rw [show (c :: (t.takeWhile isLo ++ d :: z)) =
              ((c :: t.takeWhile isLo) ++ d :: z) from rfl]
            rw [sub2_append_lo_up (c :: t.takeWhile isLo) d z ?hlo
              (by intro hh; cases hh) hup]
            case hlo =>
              intro x hx
              rcases List.mem_cons.mp hx with rfl | hx
              · exact hlc
              · exact hrun x hx
            have hsubz : sub2 z = insTail t2 := by
              rw [hz] at hIH
              rw [sub2_cons_up hup] at hIH
              rw [ins] at hIH
              injection hIH
            rw [hsubz]
            rw [htsplit]
            rw [insTail_append_no_up _ _ (fun x hx => isLo_not_isUp (hrun x hx))]
            rw [insTail_cons_up hup]
            rfl
      · -- sub1 does not match here
        rw [sub1Aux, if_neg hmatch]
        obtain ⟨z, hz⟩ := sub1Aux_head n b (c :: t)
        have hlen2 : (b :: c :: t).length ≤ n := by
          simp only [List.length_cons] at hlen ⊢
          omega
        have hIH : sub2 (sub1Aux n (b :: c :: t)) = ins (b :: c :: t) :=
          ih (b :: c :: t) hlen2 hallbct
            (pairsOK_tail hpairs)
        by_cases hub : isUp b = true
        · have hla : isLo a = true :=
            lo_of_alnum_before_up ha hub hpaar.1.1.1 hpaar.1.1.2
          rw [hz]
          rw [sub2, if_pos (by
            rw [Bool.and_eq_true, Bool.or_eq_true]
            exact ⟨Or.inl hla, hub⟩)]
          have hsubz : sub2 z = insTail (c :: t) := by
            rw [hz, sub2_cons_up hub] at hIH
            rw [ins] at hIH
            injection hIH
          rw [hsubz, ins, insTail_cons_up hub]
        · rw [hz]
          rw [sub2, if_neg (by
            intro hc2
            rw [Bool.and_eq_true] at hc2
            rw [hc2.2] at hub
            exact hub rfl)]
          rw [← hz, hIH]
          rw [Bool.not_eq_true] at hub
          rw [ins, ins, insTail_cons_nup hub]
/-! ### The `camelCase` side of the round trip -/

theorem splitOnC_cons (c x : Char) (xs : List Char) (h : List Char)
    (t : List (List Char)) (hht : splitOnC c xs = h :: t) :
    splitOnC c (x :: xs) =
      if x = c then [] :: h :: t else (x :: h) :: t := by
  rw [splitOnC, hht]

theorem splitOnC_ne_nil (c : Char) (l : List Char) :
    ∃ h t, splitOnC c l = h :: t := by
  induction l with
  | nil => exact ⟨[], [], rfl⟩
  | cons x xs ih =>
    obtain ⟨h, t, hht⟩ := ih
    by_cases hx : x = c
    · exact ⟨[], h :: t, by rw [splitOnC_cons c x xs h t hht, if_pos hx]⟩
    · exact ⟨x :: h, t, by rw [splitOnC_cons c x xs h t hht, if_neg hx]⟩

theorem splitOnC_single (c : Char) (l : List Char) (hc : c ∉ l) :
    splitOnC c l = [l] := by
  induction l with
  | nil => rfl
  | cons x xs ih =>
    have hxs := ih (fun hm => hc (List.mem_cons_of_mem _ hm))
    rw [splitOnC_cons c x xs xs [] hxs,
      if_neg (fun hx => hc (by rw [← hx]; exact List.mem_cons_self _ _))]

theorem splitOnC_append (c : Char) (u v : List Char) (hc : c ∉ u)
    (h : List Char) (t : List (List Char)) (hv : splitOnC c v = h :: t) :
    splitOnC c (u ++ v) = (u ++ h) :: t := by
  induction u with
  | nil => simpa using hv
  | cons x u' ih =>
    have hrec := ih (fun hm => hc (List.mem_cons_of_mem _ hm))
    rw [List.cons_append,
      splitOnC_cons c x (u' ++ v) (u' ++ h) t hrec,
      if_neg (fun hx => hc (by rw [← hx]; exact List.mem_cons_self _ _))]
    rfl

theorem splitOnC_cons_self (c : Char) (v : List Char) :
    splitOnC c (c :: v) = [] :: splitOnC c v := by
  obtain ⟨h, t, hht⟩ := splitOnC_ne_nil c v
  rw [splitOnC_cons c c v h t hht, if_pos rfl, ← hht]

theorem noDigitLower_tail {a : Char} {t : List Char}
    (h : noDigitLower (a :: t) = true) : noDigitLower t = true := by
  match t with
  | [] => rfl
  | b :: t2 =>
    rw [noDigitLower, Bool.and_eq_true] at h
    exact h.2

theorem noDigitLower_dropWhile (p : Char → Bool) (l : List Char)
    (h : noDigitLower l = true) : noDigitLower (l.dropWhile p) = true := by
  induction l with
  | nil => exact h
  | cons x t ih =>
    rw [List.dropWhile_cons]
    by_cases hp : p x = true
    · rw [if_pos hp]
      exact ih (noDigitLower_tail h)
    · rw [if_neg hp]
      exact h

theorem afterUpperOK_cons_not_up {a : Char} {t : List Char}
    (ha : isUp a = false) (h : afterUpperOK (a :: t) = true) :
    afterUpperOK t = true := by
  rw [afterUpperOK, if_neg (by rw [ha]; exact Bool.false_ne_true)] at h
  exact h

theorem afterUpperOK_dropWhile (l : List Char) (h : afterUpperOK l = true) :
    noDigitLower (l.dropWhile (fun c => !isUp c)) = true := by
  induction l with
  | nil => rfl
  | cons x t ih =>
    rw [List.dropWhile_cons]
    by_cases hx : isUp x = true
    · rw [if_neg (by rw [hx]; simp)]
      rw [afterUpperOK, if_pos hx] at h
      exact h
    · rw [Bool.not_eq_true] at hx
      rw [if_pos (by rw [hx]; rfl)]
      exact ih (afterUpperOK_cons_not_up hx h)

theorem isLo_isAlnum {c : Char} (h : isLo c = true) : isAlnum c = true := by
  rw [isAlnum, h]
  simp

/-- Is the head of the list a lowercase letter? -/
def headLo : List Char → Bool
  | [] => false
  | c :: _ => isLo c

theorem titleGo_id : ∀ w : List Char, w.all isAlnum = true →
    (∀ x ∈ w, isUp x = false) → noDigitLower w = true →
    (titleGo true w = w ∧ (headLo w = false → titleGo false w = w)) := by
  intro w
  induction w with
  | nil => exact fun _ _ _ => ⟨rfl, fun _ => rfl⟩
  | cons c t ih =>
    intro hall hnoup hnd
    have hc_alnum : isAlnum c = true := by
      rw [List.all_cons, Bool.and_eq_true] at hall
      exact hall.1
    have hct := ih (all_tail hall)
      (fun x hx => hnoup x (List.mem_cons_of_mem _ hx))
      (noDigitLower_tail hnd)
    by_cases hlo : isLo c = true
    · constructor
      · rw [titleGo, if_pos (isLo_isAlphaB hlo), if_pos rfl,
          lowerChar_id (isLo_not_isUp hlo), hct.1]
      · intro hh
        rw [show headLo (c :: t) = isLo c from rfl, hlo] at hh
        cases hh
    · have hdig : isDig c = true := by
        rw [isAlnum, Bool.or_eq_true, Bool.or_eq_true] at hc_alnum
        rcases hc_alnum with (h | h) | h
        · rw [hnoup c (List.mem_cons_self _ _)] at h; cases h
        · exact absurd h hlo
        · exact h
      have hheadt : headLo t = false := by
        match t with
        | [] => rfl
        | b :: t2 =>
          rw [show headLo (b :: t2) = isLo b from rfl]
          rw [noDigitLower, Bool.and_eq_true, Bool.not_eq_true',
            Bool.and_eq_false_iff] at hnd
          rcases hnd.1 with h | h
          · rw [hdig] at h; cases h
          · exact h
      have hta : titleGo true (c :: t) = c :: t := by
        rw [titleGo, if_neg (by
          rw [isDig_not_isAlphaB hdig]; exact Bool.false_ne_true)]
        rw [hct.2 hheadt]
      refine ⟨hta, fun _ => ?_⟩
      rw [titleGo, if_neg (by
        rw [isDig_not_isAlphaB hdig]; exact Bool.false_ne_true)]
      rw [hct.2 hheadt]

theorem titleCase_word (C : Char) (hC : isUp C = true) (w : List Char)
    (hwa : w.all isAlnum = true) (hw : ∀ x ∈ w, isUp x = false)
    (hnd : noDigitLower w = true) :
    titleCase (lowerChar C :: w) = C :: w := by
  rw [titleCase, titleGo,
    if_pos (isLo_isAlphaB (lowerChar_isLo hC)), if_neg (by intro h; cases h),
    upperChar_lowerChar hC, (titleGo_id w hwa hw hnd).1]

theorem mem_takeWhile_pred (p : Char → Bool) (l : List Char) (x : Char)
    (h : x ∈ l.takeWhile p) : p x = true := by
  induction l with
  | nil => cases h
  | cons y t ih =>
    rw [List.takeWhile_cons] at h
    by_cases hp : p y = true
    · rw [if_pos hp] at h
      rcases List.mem_cons.mp h with rfl | h
      · exact hp
      · exact ih h
    · rw [if_neg hp] at h
      cases h

theorem mem_of_takeWhile (p : Char → Bool) (l : List Char) (x : Char)
    (h : x ∈ l.takeWhile p) : x ∈ l := by
  induction l with
  | nil => cases h
  | cons y t ih =>
    rw [List.takeWhile_cons] at h
    by_cases hp : p y = true
    · rw [if_pos hp] at h
      rcases List.mem_cons.mp h with rfl | h
      · exact List.mem_cons_self _ _
      · exact List.mem_cons_of_mem _ (ih h)
    · rw [if_neg hp] at h
      cases h

theorem noDigitLower_of_append_left (u v : List Char)
    (h : noDigitLower (u ++ v) = true) : noDigitLower u = true := by
  induction u with
  | nil => rfl
  | cons a t ih =>
    match t, ih with
    | [], _ => rfl
    | b :: t2, ih =>
      rw [show ((a :: b :: t2) ++ v) = a :: b :: (t2 ++ v) from rfl,
        noDigitLower, Bool.and_eq_true] at h
      rw [noDigitLower, Bool.and_eq_true]
      exact ⟨h.1, ih h.2⟩

theorem lo_ne_underscore {c : Char} (h : isLo c = true) : c ≠ '_' :=
  isAlnum_ne_underscore (isLo_isAlnum h)

theorem not_underscore_mem_word {C : Char} {w : List Char}
    (hC : isLo C = true) (hw : w.all isAlnum = true) : '_' ∉ (C :: w) := by
  intro hmem
  rcases List.mem_cons.mp hmem with h | h
  · exact lo_ne_underscore hC h.symm
  · rw [List.all_eq_true] at hw
    exact isAlnum_ne_underscore (hw '_' h) rfl

theorem cc_upper_frag : ∀ (n : Nat) (C : Char) (r' : List Char),
    (C :: r').length ≤ n →
    (C :: r').all isAlnum = true → pairsOK (C :: r') = true →
    noDigitLower (C :: r') = true → isUp C = true →
    ((splitOnC '_' ((C :: insTail r').map lowerChar)).map titleCase).flatten
      = C :: r' := by
  intro n
  induction n with
  | zero =>
    intro C r' hlen
    simp at hlen
  | succ n ih =>
    intro C r' hlen hall hpairs hnd hC
    have hw_noup : ∀ x ∈ r'.takeWhile (fun c => !isUp c), isUp x = false := by
      intro x hx
      have := mem_takeWhile_pred _ _ _ hx
      rw [Bool.not_eq_true'] at this
      exact this
    have htdec : r' = r'.takeWhile (fun c => !isUp c) ++
        r'.dropWhile (fun c => !isUp c) :=
      (List.takeWhile_append_dropWhile _ r').symm
    have hins : insTail r' = r'.takeWhile (fun c => !isUp c) ++
        insTail (r'.dropWhile (fun c => !isUp c)) := by
      conv_lhs => rw [htdec]
      exact insTail_append_no_up _ _ hw_noup
    have hw_all : (r'.takeWhile (fun c => !isUp c)).all isAlnum = true := by
      rw [List.all_eq_true] at hall ⊢
      intro x hx
      refine hall x (List.mem_cons_of_mem _ ?_)
      exact mem_of_takeWhile _ _ _ hx
    have hw_lower : (r'.takeWhile (fun c => !isUp c)).map lowerChar =
        r'.takeWhile (fun c => !isUp c) :=
      map_lowerChar_id_of_no_up _ hw_noup
    have hnd_r' : noDigitLower r' = true := noDigitLower_tail hnd
    cases hr1 : r'.dropWhile (fun c => !isUp c) with
    | nil =>
      have hr'w : r' = r'.takeWhile (fun c => !isUp c) := by
        conv_lhs => rw [htdec]
        rw [hr1, List.append_nil]
      rw [hins, hr1]
      rw [show insTail ([] : List Char) = [] from rfl, List.append_nil]
      rw [List.map_cons, hw_lower]
      rw [splitOnC_single _ _ (not_underscore_mem_word (lowerChar_isLo hC) hw_all)]
      rw [List.map_singleton, List.flatten_singleton]
      rw [titleCase_word C hC _ hw_all hw_noup
        (by rw [← hr'w]; exact hnd_r')]
      rw [← hr'w]
    | cons C2 r2 =>
      have hC2 : isUp C2 = true := by
        have hh2 : (!isUp C2) = false :=
          dropWhile_head_false (fun c => !isUp c) r' C2 r2 hr1
        rw [Bool.not_eq_false'] at hh2
        exact hh2
      have hr2len : (C2 :: r2).length ≤ n := by
        have h1 : (r'.dropWhile (fun c => !isUp c)).length ≤ r'.length :=
          length_dropWhile_le _ _
        rw [hr1] at h1
        simp only [List.length_cons] at h1 hlen ⊢
        omega
      have hr2all : (C2 :: r2).all isAlnum = true := by
        have := all_dropWhile isAlnum (fun c => !isUp c) r' (all_tail hall)
        rw [hr1] at this
        exact this
      have hr2pairs : pairsOK (C2 :: r2) = true := by
        have := pairsOK_dropWhile (fun c => !isUp c) r' (pairsOK_tail hpairs)
        rw [hr1] at this
        exact this
      have hr2nd : noDigitLower (C2 :: r2) = true := by
        have := noDigitLower_dropWhile (fun c => !isUp c) r' hnd_r'
        rw [hr1] at this
        exact this
      rw [hins, hr1, insTail_cons_up hC2]
      rw [List.map_cons, List.map_append, hw_lower, List.map_cons]
      rw [show (lowerChar C :: (r'.takeWhile (fun c => !isUp c) ++
          lowerChar '_' :: (C2 :: insTail r2).map lowerChar)) =
        ((lowerChar C :: r'.takeWhile (fun c => !isUp c)) ++
          '_' :: ((C2 :: insTail r2).map lowerChar)) from by
        rw [List.cons_append]
        rw [show lowerChar '_' = '_' from rfl]]
      obtain ⟨h, t, hht⟩ := splitOnC_ne_nil '_' ((C2 :: insTail r2).map lowerChar)
      rw [splitOnC_append '_' _ _
        (not_underscore_mem_word (lowerChar_isLo hC) hw_all) [] _
        (by rw [splitOnC_cons_self, hht])]
      rw [List.append_nil, List.map_cons, List.flatten_cons]
      rw [titleCase_word C hC _ hw_all hw_noup (by
        refine noDigitLower_of_append_left _
          (r'.dropWhile (fun c => !isUp c)) ?_
        rw [← htdec]
        exact hnd_r')]
      rw [← hht]
      rw [ih C2 r2 hr2len hr2all hr2pairs hr2nd hC2]
      conv_rhs => rw [htdec, hr1]
      rw [List.cons_append]
theorem goodCamel_parts {l : List Char} (h : goodCamel l = true) :
    l.all isAlnum = true ∧ pairsOK l = true := by
  match l with
  | [] => exact absurd h (by decide)
  | a :: t =>
    have h1 : ((isLo a && (a :: t).all isAlnum && pairsOK (a :: t)) &&
        afterUpperOK (a :: t)) = true := h
    rw [Bool.and_eq_true, Bool.and_eq_true, Bool.and_eq_true] at h1
    exact ⟨h1.1.1.2, h1.1.2⟩

theorem camel_of_snake (x : List Char) (hx : goodCamel x = true) :
    camelCase (String.mk ((ins x).map lowerChar)) = String.mk x := by
  match x with
  | [] => exact absurd hx (by decide)
  | a :: t =>
    have h1 : ((isLo a && (a :: t).all isAlnum && pairsOK (a :: t)) &&
        afterUpperOK (a :: t)) = true := hx
    rw [Bool.and_eq_true, Bool.and_eq_true, Bool.and_eq_true] at h1
    obtain ⟨⟨⟨hlo, hall⟩, hpairs⟩, hupok⟩ := h1
    have hta : t.all isAlnum = true := all_tail hall
    have htp : pairsOK t = true := pairsOK_tail hpairs
    have hup_t : afterUpperOK t = true :=
      afterUpperOK_cons_not_up (isLo_not_isUp hlo) hupok
    have hw_noup : ∀ y ∈ t.takeWhile (fun c => !isUp c), isUp y = false := by
      intro y hy
      have := mem_takeWhile_pred _ _ _ hy
      rw [Bool.not_eq_true'] at this
      exact this
    have htdec : t = t.takeWhile (fun c => !isUp c) ++
        t.dropWhile (fun c => !isUp c) :=
      (List.takeWhile_append_dropWhile _ t).symm
    have hins : insTail t = t.takeWhile (fun c => !isUp c) ++
        insTail (t.dropWhile (fun c => !isUp c)) := by
      conv_lhs => rw [htdec]
      exact insTail_append_no_up _ _ hw_noup
    have hw_all : (t.takeWhile (fun c => !isUp c)).all isAlnum = true := by
      rw [List.all_eq_true] at hta ⊢
      intro y hy
      exact hta y (mem_of_takeWhile _ _ _ hy)
    have hw_lower : (t.takeWhile (fun c => !isUp c)).map lowerChar =
        t.takeWhile (fun c => !isUp c) :=
      map_lowerChar_id_of_no_up _ hw_noup
    show String.mk (camelWords (splitOnC '_'
      (lowerChar a :: (insTail t).map lowerChar))) = String.mk (a :: t)
    refine congrArg String.mk ?_
    rw [lowerChar_id (isLo_not_isUp hlo)]
    cases hr1 : t.dropWhile (fun c => !isUp c) with
    | nil =>
      have htw : t = t.takeWhile (fun c => !isUp c) := by
        conv_lhs => rw [htdec]
        rw [hr1, List.append_nil]
      have ht_noup : ∀ y ∈ t, isUp y = false := by
        intro y hy
        refine hw_noup y ?_
        rw [← htw]
        exact hy
      rw [insTail_id_of_no_up t ht_noup, map_lowerChar_id_of_no_up t ht_noup]
      rw [splitOnC_single _ _ (not_underscore_mem_word hlo hta)]
      show (a :: t) ++ ([].map titleCase).flatten = a :: t
      rw [List.map_nil, List.flatten_nil, List.append_nil]
    | cons C2 r2 =>
      have hC2 : isUp C2 = true := by
        have hh2 : (!isUp C2) = false :=
          dropWhile_head_false (fun c => !isUp c) t C2 r2 hr1
        rw [Bool.not_eq_false'] at hh2
        exact hh2
      have hr2all : (C2 :: r2).all isAlnum = true := by
        have := all_dropWhile isAlnum (fun c => !isUp c) t hta
        rw [hr1] at this
        exact this
      have hr2pairs : pairsOK (C2 :: r2) = true := by
        have := pairsOK_dropWhile (fun c => !isUp c) t htp
        rw [hr1] at this
        exact this
      have hr2nd : noDigitLower (C2 :: r2) = true := by
        have := afterUpperOK_dropWhile t hup_t
        rw [hr1] at this
        exact this
      rw [hins, hr1, insTail_cons_up hC2]
      rw [List.map_append, hw_lower, List.map_cons]
      rw [show (a :: (t.takeWhile (fun c => !isUp c) ++
          lowerChar '_' :: (C2 :: insTail r2).map lowerChar)) =
        ((a :: t.takeWhile (fun c => !isUp c)) ++
          '_' :: ((C2 :: insTail r2).map lowerChar)) from by
        rw [List.cons_append]
        rw [show lowerChar '_' = '_' from rfl]]
      obtain ⟨h, tl, hht⟩ := splitOnC_ne_nil '_' ((C2 :: insTail r2).map lowerChar)
      rw [splitOnC_append '_' _ _
        (not_underscore_mem_word hlo hw_all) [] _
        (by rw [splitOnC_cons_self, hht])]
      rw [List.append_nil]
      show (a :: t.takeWhile (fun c => !isUp c)) ++
        ((h :: tl).map titleCase).flatten = a :: t
      rw [← hht]
      rw [cc_upper_frag (C2 :: r2).length C2 r2 (le_refl _)
        hr2all hr2pairs hr2nd hC2]
      rw [List.cons_append]
      conv_rhs => rw [htdec, hr1]

/-- C7: on strings in the amended class (nonempty, starting with a
lowercase letter, alphanumeric, no two adjacent uppercase letters, no
digit adjacent to an uppercase letter, and from the first uppercase
letter on no digit immediately followed by a lowercase letter),
`camelCase` inverts `snake_case`. -/
theorem C7_roundtrip_amended (s : String) (h : goodCamel s.data = true) :
    camelCase (snake_case s) = s := by
  obtain ⟨hall, hpairs⟩ := goodCamel_parts h
  have hsub : sub2 (sub1 s.data) = ins s.data :=
    gen_sub s.data.length s.data (le_refl _) hall hpairs
  calc camelCase (snake_case s)
      = camelCase (String.mk ((ins s.data).map lowerChar)) := by
        rw [snake_case, hsub]
    _ = String.mk s.data := camel_of_snake s.data h
    _ = s := rfl

/-- Witness for C7: the round trip holds at the concrete identifier
aBcDe, which is in the amended class. -/
theorem C7_roundtrip_amended_witness :
    goodCamel ("aBcDe" : String).data = true ∧
      camelCase (snake_case "aBcDe") = "aBcDe" :=
  ⟨by decide, C7_roundtrip_amended "aBcDe" (by decide)⟩
